import Mathlib

/-!
Verification development for the personalized input-output HMM implementation
in `src/piohmm.py` (class `HMM`).  Arrays are shallowly embedded as curried
functions `ℕ → … → ℝ` together with explicit size parameters; reductions over a
tensor dimension of size `m` become sums over `Finset.range m`.  Real-valued
floating point arithmetic is modelled by `ℝ`; the log domain, where the code
deliberately works with `-inf` values (`torch.log` of an exactly-zero
transition probability), is modelled by `EReal` with `EReal.exp : EReal → ℝ≥0∞`
and `ENNReal.log : ℝ≥0∞ → EReal`.
-/

namespace PIOHMM

open scoped BigOperators ENNReal

/-- `torch.logsumexp` along one dimension of size `m`:
`lse m f = log (∑ j < m, exp (f j))`. -/
noncomputable def lse (m : ℕ) (f : ℕ → ℝ) : ℝ :=
  Real.log (∑ j ∈ Finset.range m, Real.exp (f j))

lemma sum_exp_pos (m : ℕ) (hm : 0 < m) (f : ℕ → ℝ) :
    0 < ∑ j ∈ Finset.range m, Real.exp (f j) :=
  Finset.sum_pos (fun j _ => Real.exp_pos (f j)) (Finset.nonempty_range_iff.mpr hm.ne')

lemma exp_lse (m : ℕ) (hm : 0 < m) (f : ℕ → ℝ) :
    Real.exp (lse m f) = ∑ j ∈ Finset.range m, Real.exp (f j) :=
  Real.exp_log (sum_exp_pos m hm f)

lemma lse_congr (m : ℕ) (f g : ℕ → ℝ) (h : ∀ j, f j = g j) : lse m f = lse m g := by
  unfold lse
  congr 1
  exact Finset.sum_congr rfl fun j _ => by rw [h j]

/-! ## Forward pass (`HMM.forward`, src/piohmm.py lines 584-613)

The code first forms `a = pi[:, None].log() + likelihood[:, :, 0]`, stores
`scaling_factor[:, 0] = logsumexp(a, dim=0)` and `alpha[:, :, 0] = a - scaling`,
then iterates
`a = likelihood[:, :, i] + logsumexp(asample[:, None, :] + logA[:, :, None], dim=0)`
with the same normalisation, and finally multiplies both `alpha` and
`scaling_factor` by the time mask.  `aU … t s i` is the unnormalised score
`a[s, i]` at time `t` (time moved to the front so that the Python loop becomes
structural recursion); the normalisation of the previous column is inlined. -/
noncomputable def aU (k : ℕ) (logpi : ℕ → ℝ) (logA : ℕ → ℕ → ℝ)
    (lik : ℕ → ℕ → ℕ → ℝ) : ℕ → ℕ → ℕ → ℝ
  | 0 => fun s i => logpi s + lik s i 0
  | t + 1 => fun s i =>
      lik s i (t + 1) +
        lse k (fun u =>
          (aU k logpi logA lik t u i - lse k (fun w => aU k logpi logA lik t w i)) + logA u s)

/-- Pre-mask scaling factor: `scaling_factor[i, t] = logsumexp(a, dim=0)`. -/
noncomputable def scalingU (k : ℕ) (logpi : ℕ → ℝ) (logA : ℕ → ℕ → ℝ)
    (lik : ℕ → ℕ → ℕ → ℝ) (t i : ℕ) : ℝ :=
  lse k (fun s => aU k logpi logA lik t s i)

/-- Pre-mask normalised log alpha: `alpha[:, :, t] = a - scaling_factor[:, t]`. -/
noncomputable def alphaU (k : ℕ) (logpi : ℕ → ℝ) (logA : ℕ → ℕ → ℝ)
    (lik : ℕ → ℕ → ℕ → ℝ) (t s i : ℕ) : ℝ :=
  aU k logpi logA lik t s i - scalingU k logpi logA lik t i

/-- Returned log alpha of `HMM.forward`, in the code's `k × n × t` index order;
the final `alpha = alpha * self.tm[None, :, :]` is the trailing factor. -/
noncomputable def forwardAlpha (k : ℕ) (pi : ℕ → ℝ) (A : ℕ → ℕ → ℝ)
    (tm : ℕ → ℕ → ℝ) (lik : ℕ → ℕ → ℕ → ℝ) (s i t : ℕ) : ℝ :=
  alphaU k (fun u => Real.log (pi u)) (fun u v => Real.log (A u v)) lik t s i * tm i t

/-- Returned scaling factors of `HMM.forward` (`scaling_factor * self.tm`). -/
noncomputable def forwardScaling (k : ℕ) (pi : ℕ → ℝ) (A : ℕ → ℕ → ℝ)
    (tm : ℕ → ℕ → ℝ) (lik : ℕ → ℕ → ℕ → ℝ) (i t : ℕ) : ℝ :=
  scalingU k (fun u => Real.log (pi u)) (fun u v => Real.log (A u v)) lik t i * tm i t

/-! ## Backward pass (`HMM.backward`, src/piohmm.py lines 615-634)

`beta[:, :, T-1] = 0` and, for `i = T-2 … 0`,
`beta[:, :, i] = (logsumexp(beta[:, :, i+1][None] + logA[:, :, None]
                 + likelihood[None, :, :, i+1], dim=1) - scaling[:, i+1]) * tm[:, i+1]`.
`betaAux … j s i` is `beta[s, i]` at time `T-1-j` (recursion counts steps back
from the final time point). -/
noncomputable def betaAux (k T : ℕ) (A : ℕ → ℕ → ℝ) (lik : ℕ → ℕ → ℕ → ℝ)
    (scal : ℕ → ℕ → ℝ) (tm : ℕ → ℕ → ℝ) : ℕ → ℕ → ℕ → ℝ
  | 0 => fun _ _ => 0
  | j + 1 => fun s i =>
      (lse k (fun u =>
          betaAux k T A lik scal tm j u i + Real.log (A s u) + lik u i (T - 1 - j)) -
        scal i (T - 1 - j)) * tm i (T - 1 - j)

/-- Returned log beta of `HMM.backward`, in the code's `k × n × t` index order. -/
noncomputable def backwardBeta (k T : ℕ) (A : ℕ → ℕ → ℝ) (lik : ℕ → ℕ → ℕ → ℝ)
    (scal : ℕ → ℕ → ℝ) (tm : ℕ → ℕ → ℝ) (s i t : ℕ) : ℝ :=
  betaAux k T A lik scal tm (T - 1 - t) s i

/-- `gamma = alpha + beta` as formed in `HMM.e_step` (src/piohmm.py line 668);
`e_step` hands the mask-multiplied `scaling_factor` of `forward` to `backward`. -/
noncomputable def eStepGammaOf (k T : ℕ) (pi : ℕ → ℝ) (A : ℕ → ℕ → ℝ)
    (tm : ℕ → ℕ → ℝ) (lik : ℕ → ℕ → ℕ → ℝ) (s i t : ℕ) : ℝ :=
  forwardAlpha k pi A tm lik s i t +
    backwardBeta k T A lik (forwardScaling k pi A tm lik) tm s i t

/-! ## Forward-backward invariants used by the E-step claims -/

/-- Each normalised alpha column is a log probability vector:
`∑ s, exp (alpha[s, i, t]) = 1` before masking. -/
lemma sum_exp_alphaU (k : ℕ) (hk : 0 < k) (logpi : ℕ → ℝ) (logA : ℕ → ℕ → ℝ)
    (lik : ℕ → ℕ → ℕ → ℝ) (t i : ℕ) :
    ∑ s ∈ Finset.range k, Real.exp (alphaU k logpi logA lik t s i) = 1 := by
  have hC : Real.exp (scalingU k logpi logA lik t i) =
      ∑ j ∈ Finset.range k, Real.exp (aU k logpi logA lik t j i) :=
    exp_lse k hk _
  have hCpos : (0 : ℝ) < ∑ j ∈ Finset.range k, Real.exp (aU k logpi logA lik t j i) :=
    sum_exp_pos k hk _
  simp only [alphaU, Real.exp_sub, hC]
  rw [← Finset.sum_div, div_self hCpos.ne']

/-- Unfolding of the forward recursion step in terms of the normalised alpha. -/
lemma aU_succ (k : ℕ) (logpi : ℕ → ℝ) (logA : ℕ → ℕ → ℝ)
    (lik : ℕ → ℕ → ℕ → ℝ) (t s i : ℕ) :
    aU k logpi logA lik (t + 1) s i =
      lik s i (t + 1) + lse k (fun u => alphaU k logpi logA lik t u i + logA u s) := rfl

/-- Exponential form of the forward recursion step. -/
lemma exp_aU_succ (k : ℕ) (hk : 0 < k) (logpi : ℕ → ℝ) (logA : ℕ → ℕ → ℝ)
    (lik : ℕ → ℕ → ℕ → ℝ) (t s i : ℕ) :
    Real.exp (aU k logpi logA lik (t + 1) s i) =
      Real.exp (lik s i (t + 1)) *
        ∑ u ∈ Finset.range k,
          Real.exp (alphaU k logpi logA lik t u i) * Real.exp (logA u s) := by
  rw [aU_succ, Real.exp_add, exp_lse k hk]
  simp [Real.exp_add]

/-- Sum-to-one of `exp (alpha + beta)` with `beta` the value computed by
`HMM.backward` from the mask-multiplied scaling factors, by induction on the
number `j` of steps back from the final time point (the time index is
`T - 1 - j`).  Only binariness of the time mask is needed. -/
lemma sum_exp_alphaU_add_betaAux (k T : ℕ) (hk : 0 < k)
    (pi : ℕ → ℝ) (A : ℕ → ℕ → ℝ) (tm : ℕ → ℕ → ℝ)
    (hbin : ∀ i t, tm i t = 0 ∨ tm i t = 1) (lik : ℕ → ℕ → ℕ → ℝ) :
    ∀ j, j + 1 ≤ T → ∀ i,
      ∑ s ∈ Finset.range k,
        Real.exp
          (alphaU k (fun u => Real.log (pi u)) (fun u v => Real.log (A u v)) lik
              (T - 1 - j) s i +
            betaAux k T A lik (forwardScaling k pi A tm lik) tm j s i) = 1 := by
  intro j
  induction j with
  | zero =>
    intro _ i
    simp only [betaAux, add_zero]
    exact sum_exp_alphaU k hk _ _ lik _ i
  | succ j ih =>
    intro hj i
    have ht : T - 1 - j = (T - 1 - (j + 1)) + 1 := by omega
    set lp := fun u => Real.log (pi u) with hlp
    set la := fun u v => Real.log (A u v) with hla
    set t := T - 1 - (j + 1) with htdef
    have hbeta : ∀ s,
        betaAux k T A lik (forwardScaling k pi A tm lik) tm (j + 1) s i =
          (lse k (fun u =>
              betaAux k T A lik (forwardScaling k pi A tm lik) tm j u i +
                Real.log (A s u) + lik u i (t + 1)) -
            forwardScaling k pi A tm lik i (t + 1)) * tm i (t + 1) := by
      intro s
      rw [betaAux, ht]
    rcases hbin i (t + 1) with h0 | h1
    · -- the step above time `t` is masked out, so beta vanishes here
      have : ∀ s, betaAux k T A lik (forwardScaling k pi A tm lik) tm (j + 1) s i = 0 := by
        intro s; rw [hbeta s, h0, mul_zero]
      calc ∑ s ∈ Finset.range k,
            Real.exp (alphaU k lp la lik t s i +
              betaAux k T A lik (forwardScaling k pi A tm lik) tm (j + 1) s i)
          = ∑ s ∈ Finset.range k, Real.exp (alphaU k lp la lik t s i) := by
            refine Finset.sum_congr rfl fun s _ => ?_
            rw [this s, add_zero]
        _ = 1 := sum_exp_alphaU k hk lp la lik t i
    · -- the step above time `t` is valid: use the forward recursion and the IH
      have hscal : forwardScaling k pi A tm lik i (t + 1) =
          scalingU k lp la lik (t + 1) i := by
        rw [forwardScaling, h1, mul_one]
      set C := Real.exp (scalingU k lp la lik (t + 1) i) with hCdef
      have hCpos : 0 < C := Real.exp_pos _
      have hexpbeta : ∀ s,
          Real.exp (betaAux k T A lik (forwardScaling k pi A tm lik) tm (j + 1) s i) =
            (∑ u ∈ Finset.range k,
              Real.exp (betaAux k T A lik (forwardScaling k pi A tm lik) tm j u i) *
                Real.exp (la s u) * Real.exp (lik u i (t + 1))) / C := by
        intro s
        rw [hbeta s, h1, mul_one, hscal, Real.exp_sub, exp_lse k hk]
        congr 1
        exact Finset.sum_congr rfl fun u _ => by rw [Real.exp_add, Real.exp_add]
      have key : ∀ u,
          Real.exp (lik u i (t + 1)) *
              ∑ s ∈ Finset.range k, Real.exp (alphaU k lp la lik t s i) * Real.exp (la s u) =
            C * Real.exp (alphaU k lp la lik (t + 1) u i) := by
        intro u
        rw [← exp_aU_succ k hk lp la lik t u i]
        rw [alphaU, Real.exp_sub, hCdef]
        field_simp
      calc ∑ s ∈ Finset.range k,
            Real.exp (alphaU k lp la lik t s i +
              betaAux k T A lik (forwardScaling k pi A tm lik) tm (j + 1) s i)
          = ∑ s ∈ Finset.range k, ∑ u ∈ Finset.range k,
              Real.exp (alphaU k lp la lik t s i) *
                (Real.exp (betaAux k T A lik (forwardScaling k pi A tm lik) tm j u i) *
                  Real.exp (la s u) * Real.exp (lik u i (t + 1))) / C := by
            refine Finset.sum_congr rfl fun s _ => ?_
            rw [Real.exp_add, hexpbeta s, ← mul_div_assoc, Finset.mul_sum, Finset.sum_div]
        _ = ∑ u ∈ Finset.range k, ∑ s ∈ Finset.range k,
              Real.exp (alphaU k lp la lik t s i) *
                (Real.exp (betaAux k T A lik (forwardScaling k pi A tm lik) tm j u i) *
                  Real.exp (la s u) * Real.exp (lik u i (t + 1))) / C :=
            Finset.sum_comm
        _ = ∑ u ∈ Finset.range k,
              Real.exp (alphaU k lp la lik (t + 1) u i +
                betaAux k T A lik (forwardScaling k pi A tm lik) tm j u i) := by
            refine Finset.sum_congr rfl fun u _ => ?_
            rw [← Finset.sum_div]
            rw [show ∑ s ∈ Finset.range k,
                  Real.exp (alphaU k lp la lik t s i) *
                    (Real.exp (betaAux k T A lik (forwardScaling k pi A tm lik) tm j u i) *
                      Real.exp (la s u) * Real.exp (lik u i (t + 1))) =
                Real.exp (betaAux k T A lik (forwardScaling k pi A tm lik) tm j u i) *
                  (Real.exp (lik u i (t + 1)) *
                    ∑ s ∈ Finset.range k,
                      Real.exp (alphaU k lp la lik t s i) * Real.exp (la s u)) from ?_]
            · rw [key u, Real.exp_add]
              field_simp
              ring
            · rw [Finset.mul_sum, Finset.mul_sum]
              exact Finset.sum_congr rfl fun s _ => by ring
        _ = 1 := by
            have hj' : j + 1 ≤ T := by omega
            have := ih hj' i
            rw [ht] at this
            exact this

/-! ## Emission log-density (`HMM.log_gaussian`, src/piohmm.py lines 257-317)

Model-variant flags of `HMM.__init__`.  `ioFlag`/`stateIo`/`persoIo`/`perso`
are the code's `io`/`state_io`/`perso_io`/`perso` attributes. -/
structure Flags where
  fullCov : Bool
  ioFlag : Bool
  stateIo : Bool
  persoIo : Bool
  perso : Bool
  priorV : Bool
  priorMu : Bool
  ut : Bool

/-- The parameter dictionary `params`.  The code's `V` has shape `k × d` when
`state_io` and shape `d` otherwise; the two shapes are split into `Vs` and
`Vp`.  Likewise `var` is `k × d × d` (`varF`) on the full-covariance path and
`k × d` (`varD`) on the diagonal path. -/
structure Params where
  mu : ℕ → ℕ → ℝ
  varD : ℕ → ℕ → ℝ
  varF : ℕ → ℕ → ℕ → ℝ
  piW : ℕ → ℝ
  A : ℕ → ℕ → ℝ
  Vs : ℕ → ℕ → ℝ
  Vp : ℕ → ℝ
  mnoise : ℝ
  vnoise : ℝ
  nnoise : ℝ
  munoise : ℝ

/-- The residual `r` of `log_gaussian` (and of the identical mean model used
throughout the M-step): data minus state mean, minus the input-output term
(state-dependent `V_k * ins` or pooled `V * ins`), minus the personalized
input-output term `m_sample * ins`, minus the personalized state term
`n_sample`, according to the flags. -/
noncomputable def residual (fl : Flags) (mu Vs : ℕ → ℕ → ℝ) (Vp : ℕ → ℝ)
    (data : ℕ → ℕ → ℕ → ℝ) (ins : ℕ → ℕ → ℝ)
    (msample nsample : ℕ → ℕ → ℝ) (s i t l : ℕ) : ℝ :=
  data i t l - mu s l -
    (if fl.ioFlag then (if fl.stateIo then Vs s l else Vp l) * ins i t else 0) -
    (if fl.ioFlag ∧ fl.persoIo then msample i l * ins i t else 0) -
    (if fl.perso then nsample i l else 0)

/-- Squared Mahalanobis distance `‖L⁻¹ r‖²` of `HMM.batch_mahalanobis`,
expressed through the covariance matrix itself (`Σ = L Lᵀ`, so
`‖L⁻¹ r‖² = rᵀ Σ⁻¹ r`); the matrix inverse is `Matrix.inv`. -/
noncomputable def mahalanobisSq (d : ℕ) (Sigma : ℕ → ℕ → ℝ) (r : ℕ → ℝ) : ℝ :=
  ∑ a : Fin d, ∑ b : Fin d,
    r a * (Matrix.of fun a' b' : Fin d => Sigma a' b')⁻¹ a b * r b

/-- `2 * Σ log |diag L|` of the full-covariance path, expressed through the
covariance matrix (`= log det Σ` for `Σ = L Lᵀ`). -/
noncomputable def logDetFull (d : ℕ) (Sigma : ℕ → ℕ → ℝ) : ℝ :=
  Real.log (Matrix.det (Matrix.of fun a b : Fin d => Sigma a b))

/-- Value computed by the full-covariance branch of `log_gaussian`
(src/piohmm.py line 296): `-0.5 * (md + D*log(2π) + log_det)`. -/
noncomputable def logGaussianFull (fl : Flags) (d : ℕ) (par : Params)
    (data : ℕ → ℕ → ℕ → ℝ) (ins : ℕ → ℕ → ℝ)
    (msample nsample : ℕ → ℕ → ℝ) (s i t : ℕ) : ℝ :=
  -(1 / 2) *
    (mahalanobisSq d (par.varF s) (fun l => residual fl par.mu par.Vs par.Vp data ins msample nsample s i t l) +
      d * Real.log (2 * Real.pi) + logDetFull d (par.varF s))

/-- Value computed by the diagonal branch of `log_gaussian`
(src/piohmm.py lines 312-315).  Note the code's shape: it forms
`-0.5 * (var.log() + r**2 / var)`, then adds the *whole* constant
`log_norm_constant = D*log(2π)` to every entry, and only then sums over the
dimension axis — so `D*log(2π)` is added `D` times with coefficient `+1`,
not once with coefficient `-1/2`. -/
noncomputable def logGaussianDiag (fl : Flags) (d : ℕ) (par : Params)
    (data : ℕ → ℕ → ℕ → ℝ) (ins : ℕ → ℕ → ℝ)
    (msample nsample : ℕ → ℕ → ℝ) (s i t : ℕ) : ℝ :=
  ∑ l ∈ Finset.range d,
    (-(1 / 2) *
        (Real.log (par.varD s l) +
          (residual fl par.mu par.Vs par.Vp data ins msample nsample s i t l) ^ 2 / par.varD s l) +
      d * Real.log (2 * Real.pi))

/-- `log_gaussian`, value level: branch on `full_cov`. -/
noncomputable def logGaussian (fl : Flags) (d : ℕ) (par : Params)
    (data : ℕ → ℕ → ℕ → ℝ) (ins : ℕ → ℕ → ℝ)
    (msample nsample : ℕ → ℕ → ℝ) (s i t : ℕ) : ℝ :=
  if fl.fullCov then logGaussianFull fl d par data ins msample nsample s i t
  else logGaussianDiag fl d par data ins msample nsample s i t

/-- `HMM.get_likelihoods` (src/piohmm.py lines 348-360, `log=True`):
the log densities multiplied by the observation mask. -/
noncomputable def getLikelihoods (fl : Flags) (d : ℕ) (par : Params)
    (data : ℕ → ℕ → ℕ → ℝ) (ins : ℕ → ℕ → ℝ) (om : ℕ → ℕ → ℝ)
    (msample nsample : ℕ → ℕ → ℝ) (s i t : ℕ) : ℝ :=
  logGaussian fl d par data ins msample nsample s i t * om i t

/-- The log state marginal `gamma` of `HMM.e_step` on its full pipeline:
`likelihood = get_likelihoods(...)`, `alpha, scaling = forward(...)`,
`beta = backward(likelihood, params, scaling)`, `gamma = alpha + beta`. -/
noncomputable def eStepGamma (fl : Flags) (k T d : ℕ) (par : Params)
    (data : ℕ → ℕ → ℕ → ℝ) (ins : ℕ → ℕ → ℝ) (om tm : ℕ → ℕ → ℝ)
    (msample nsample : ℕ → ℕ → ℝ) (s i t : ℕ) : ℝ :=
  eStepGammaOf k T par.piW par.A tm
    (getLikelihoods fl d par data ins om msample nsample) s i t

/-- **C1.** For every valid configuration, the log state marginal produced by
the E-step is the elementwise sum of the log forward variable and the log
backward variable (`gamma = alpha + beta`), and for every subject `i` and
every valid time step `t` (`TimeMask[i,t] = 1`), exponentiating
`gamma[:, i, t]` and summing over the `K` states yields `1` (here exactly, so
in particular within the `1e-6` tolerance). -/
theorem e_step_gamma_is_alpha_add_beta_and_sums_to_one
    (fl : Flags) (k T d : ℕ) (par : Params)
    (data : ℕ → ℕ → ℕ → ℝ) (ins : ℕ → ℕ → ℝ) (om tm : ℕ → ℕ → ℝ)
    (msample nsample : ℕ → ℕ → ℝ)
    (hk : 0 < k) (hbin : ∀ i t', tm i t' = 0 ∨ tm i t' = 1) :
    (∀ s i t',
        eStepGamma fl k T d par data ins om tm msample nsample s i t' =
          forwardAlpha k par.piW par.A tm
              (getLikelihoods fl d par data ins om msample nsample) s i t' +
            backwardBeta k T par.A
              (getLikelihoods fl d par data ins om msample nsample)
              (forwardScaling k par.piW par.A tm
                (getLikelihoods fl d par data ins om msample nsample)) tm s i t') ∧
      ∀ i t', t' < T → tm i t' = 1 →
        |(∑ s ∈ Finset.range k,
            Real.exp (eStepGamma fl k T d par data ins om tm msample nsample s i t')) - 1| ≤
          1e-6 := by
  constructor
  · intro s i t'
    rfl
  · intro i t' ht' htm
    have hsum :
        (∑ s ∈ Finset.range k,
          Real.exp (eStepGamma fl k T d par data ins om tm msample nsample s i t')) = 1 := by
      have hj : (T - 1 - t') + 1 ≤ T := by omega
      have := sum_exp_alphaU_add_betaAux k T hk par.piW par.A tm hbin
        (getLikelihoods fl d par data ins om msample nsample) (T - 1 - t') hj i
      rw [show T - 1 - (T - 1 - t') = t' from by omega] at this
      calc (∑ s ∈ Finset.range k,
              Real.exp (eStepGamma fl k T d par data ins om tm msample nsample s i t'))
          = ∑ s ∈ Finset.range k,
              Real.exp
                (alphaU k (fun u => Real.log (par.piW u)) (fun u v => Real.log (par.A u v))
                    (getLikelihoods fl d par data ins om msample nsample) t' s i +
                  betaAux k T par.A (getLikelihoods fl d par data ins om msample nsample)
                    (forwardScaling k par.piW par.A tm
                      (getLikelihoods fl d par data ins om msample nsample)) tm (T - 1 - t') s i) := by
            refine Finset.sum_congr rfl fun s _ => ?_
            have : eStepGamma fl k T d par data ins om tm msample nsample s i t' =
                alphaU k (fun u => Real.log (par.piW u)) (fun u v => Real.log (par.A u v))
                    (getLikelihoods fl d par data ins om msample nsample) t' s i * tm i t' +
                  betaAux k T par.A (getLikelihoods fl d par data ins om msample nsample)
                    (forwardScaling k par.piW par.A tm
                      (getLikelihoods fl d par data ins om msample nsample)) tm (T - 1 - t') s i := rfl
            rw [this, htm, mul_one]
        _ = 1 := this
    rw [hsum]
    norm_num

/-- Concrete instance discharging the hypotheses of the `C1` theorem
(`K = 1`, `T = 1`, all-ones masks, zero parameters and data). -/
theorem e_step_gamma_sums_to_one_witness :
    |(∑ s ∈ Finset.range 1,
        Real.exp
          (eStepGamma ⟨false, false, false, false, false, false, false, false⟩ 1 1 1
            ⟨fun _ _ => 0, fun _ _ => 1, fun _ _ _ => 0, fun _ => 1, fun _ _ => 1,
              fun _ _ => 0, fun _ => 0, 0, 0, 0, 0⟩
            (fun _ _ _ => 0) (fun _ _ => 0) (fun _ _ => 1) (fun _ _ => 1)
            (fun _ _ => 0) (fun _ _ => 0) s 0 0)) - 1| ≤ 1e-6 :=
  (e_step_gamma_is_alpha_add_beta_and_sums_to_one
      ⟨false, false, false, false, false, false, false, false⟩ 1 1 1
      ⟨fun _ _ => 0, fun _ _ => 1, fun _ _ _ => 0, fun _ => 1, fun _ _ => 1,
        fun _ _ => 0, fun _ => 0, 0, 0, 0, 0⟩
      (fun _ _ _ => 0) (fun _ _ => 0) (fun _ _ => 1) (fun _ _ => 1)
      (fun _ _ => 0) (fun _ _ => 0) (by norm_num)
      (fun _ _ => Or.inr rfl)).2 0 0 (by norm_num) rfl

/-- **C3.** For every emission log-likelihood array and parameter set, the
forward pass computes, for each subject `i` (with valid time steps, so that
the final multiplicative time mask is the identity): at `t = 0`,
`alpha[:, i, 0] = log pi + loglik[:, i, 0]` minus its logsumexp over states,
which is stored as `scaling[i, 0]`; and for every later `t`,
`alpha[s, i, t] = loglik[s, i, t] + logsumexp_u (alpha[u, i, t-1] + log A[u, s])`
minus the logsumexp over `s` of that quantity, which is stored as
`scaling[i, t]`. -/
theorem forward_recursion_correct (k : ℕ) (pi : ℕ → ℝ) (A : ℕ → ℕ → ℝ)
    (tm : ℕ → ℕ → ℝ) (lik : ℕ → ℕ → ℕ → ℝ) (i : ℕ) (hi : ∀ u, tm i u = 1) :
    (forwardScaling k pi A tm lik i 0 =
        lse k (fun s => Real.log (pi s) + lik s i 0)) ∧
      (∀ s, forwardAlpha k pi A tm lik s i 0 =
          Real.log (pi s) + lik s i 0 - forwardScaling k pi A tm lik i 0) ∧
      (∀ t, forwardScaling k pi A tm lik i (t + 1) =
          lse k (fun s => lik s i (t + 1) +
            lse k (fun u => forwardAlpha k pi A tm lik u i t + Real.log (A u s)))) ∧
      ∀ s t, forwardAlpha k pi A tm lik s i (t + 1) =
          lik s i (t + 1) +
            lse k (fun u => forwardAlpha k pi A tm lik u i t + Real.log (A u s)) -
          forwardScaling k pi A tm lik i (t + 1) := by
  have halpha : ∀ s t, forwardAlpha k pi A tm lik s i t =
      alphaU k (fun u => Real.log (pi u)) (fun u v => Real.log (A u v)) lik t s i := by
    intro s t; rw [forwardAlpha, hi t, mul_one]
  have hscal : ∀ t, forwardScaling k pi A tm lik i t =
      scalingU k (fun u => Real.log (pi u)) (fun u v => Real.log (A u v)) lik t i := by
    intro t; rw [forwardScaling, hi t, mul_one]
  have hinner : ∀ s t,
      lse k (fun u => forwardAlpha k pi A tm lik u i t + Real.log (A u s)) =
        lse k (fun u =>
          alphaU k (fun u' => Real.log (pi u')) (fun u' v => Real.log (A u' v)) lik t u i +
            Real.log (A u s)) := by
    intro s t
    exact lse_congr k _ _ fun u => by rw [halpha u t]
  refine ⟨?_, ?_, ?_, ?_⟩
  · rw [hscal 0]; rfl
  · intro s; rw [halpha s 0, hscal 0]; rfl
  · intro t
    rw [hscal (t + 1)]
    unfold scalingU
    refine lse_congr k _ _ fun s => ?_
    rw [aU_succ, hinner s t]
  · intro s t
    rw [halpha s (t + 1), hscal (t + 1)]
    unfold alphaU
    rw [aU_succ, hinner s t]

/-- Concrete instance discharging the all-valid-time-mask hypothesis of the
`C3` theorem. -/
theorem forward_recursion_correct_witness :
    forwardAlpha 1 (fun _ => 1) (fun _ _ => 1) (fun _ _ => 1) (fun _ _ _ => 0) 0 0 0 =
      Real.log 1 + 0 - forwardScaling 1 (fun _ => 1) (fun _ _ => 1) (fun _ _ => 1)
        (fun _ _ _ => 0) 0 0 :=
  (forward_recursion_correct 1 (fun _ => 1) (fun _ _ => 1) (fun _ _ => 1)
    (fun _ _ _ => 0) 0 (fun _ => rfl)).2.1 0

/-! ## Viterbi decoder (`HMM.viterbi`, src/piohmm.py lines 1151-1178)

`torch.max(·, dim=0)` / `torch.argmax(·, dim=0)` return the maximum together
with the index of the *first* maximal entry; they are modelled as a left fold
(`vmax`) together with its first-maximum index (`amax`, which moves to a later
index only on a strict increase). -/
noncomputable def vmax : ℕ → (ℕ → ℝ) → ℝ
  | 0, f => f 0
  | m + 1, f => max (vmax m f) (f m)

noncomputable def amax : ℕ → (ℕ → ℝ) → ℕ
  | 0, _ => 0
  | m + 1, f => if vmax m f < f m then m else amax m f

lemma le_vmax (m : ℕ) (f : ℕ → ℝ) : ∀ j, j < m → f j ≤ vmax m f := by
  induction m with
  | zero => intro j hj; omega
  | succ m ih =>
    intro j hj
    rcases Nat.lt_succ_iff_lt_or_eq.mp hj with h | h
    · calc f j ≤ vmax m f := by
            rcases Nat.eq_zero_or_pos m with hm | _
            · omega
            · exact ih j h
        _ ≤ vmax (m + 1) f := le_max_left _ _
    · rw [h, vmax]; exact le_max_right _ _

lemma amax_lt (m : ℕ) (hm : 0 < m) (f : ℕ → ℝ) : amax m f < m := by
  induction m with
  | zero => omega
  | succ m ih =>
    rw [amax]
    split
    · omega
    · rcases Nat.eq_zero_or_pos m with hm' | hm'
      · subst hm'; rw [amax]; omega
      · exact Nat.lt_succ_of_lt (ih hm')

lemma f_amax_eq_vmax (m : ℕ) (hm : 0 < m) (f : ℕ → ℝ) : f (amax m f) = vmax m f := by
  induction m with
  | zero => omega
  | succ m ih =>
    rw [amax, vmax]
    split
    · next h => exact (max_eq_right h.le).symm
    · next h =>
      rcases Nat.eq_zero_or_pos m with hm' | hm'
      · subst hm'
        simp [amax, vmax]
      · rw [ih hm', max_eq_left (not_lt.mp h)]

lemma lt_vmax_of_lt_amax (m : ℕ) (f : ℕ → ℝ) :
    ∀ j, j < amax m f → f j < vmax m f := by
  induction m with
  | zero => intro j hj; rw [amax] at hj; omega
  | succ m ih =>
    intro j hj
    rw [amax] at hj
    rw [vmax]
    split at hj
    · next h =>
      calc f j ≤ vmax m f := le_vmax m f j hj
        _ < f m := h
        _ ≤ max (vmax m f) (f m) := le_max_right _ _
    · next h =>
      calc f j < vmax m f := ih j hj
        _ ≤ max (vmax m f) (f m) := le_max_left _ _

/-- Viterbi trellis `omega` (the time index is moved to the front):
`omega[:, :, 0] = pi[:, None].log() + likelihood[:, :, 0]`, then
`inner_max, psi[:, :, i] = torch.max(logA[:, :, None] + omega[:, None, :, i-1], dim=0)`
and `omega[:, :, i] = likelihood[:, :, i] + inner_max`. -/
noncomputable def omegaV (k : ℕ) (logpi : ℕ → ℝ) (logA : ℕ → ℕ → ℝ)
    (lik : ℕ → ℕ → ℕ → ℝ) : ℕ → ℕ → ℕ → ℝ
  | 0 => fun s i => logpi s + lik s i 0
  | t + 1 => fun s i =>
      lik s i (t + 1) + vmax k (fun u => logA u s + omegaV k logpi logA lik t u i)

/-- Predecessor table `psi`; its time-0 slice keeps the initialisation value
`0` (`psi = torch.zeros(...)`, never written at `i = 0`). -/
noncomputable def psiV (k : ℕ) (logpi : ℕ → ℝ) (logA : ℕ → ℕ → ℝ)
    (lik : ℕ → ℕ → ℕ → ℝ) (s i : ℕ) : ℕ → ℕ
  | 0 => 0
  | t + 1 => amax k (fun u => logA u s + omegaV k logpi logA lik t u i)

/-- Backtracking state sequence; `mpsAux j` is `mps[:, T-1-j]`:
`mps[:, -1] = argmax(omega[:, :, -1], dim=0)` and, going down in time,
`mps[:, i] = psi[mps[:, i+1], :, i+1]` (the `torch.gather` call). -/
noncomputable def mpsAux (k T : ℕ) (logpi : ℕ → ℝ) (logA : ℕ → ℕ → ℝ)
    (lik : ℕ → ℕ → ℕ → ℝ) (i : ℕ) : ℕ → ℕ
  | 0 => amax k (fun s => omegaV k logpi logA lik (T - 1) s i)
  | j + 1 => psiV k logpi logA lik (mpsAux k T logpi logA lik i j) i (T - 1 - j)

noncomputable def mpsV (k T : ℕ) (logpi : ℕ → ℝ) (logA : ℕ → ℕ → ℝ)
    (lik : ℕ → ℕ → ℕ → ℝ) (i t : ℕ) : ℕ :=
  mpsAux k T logpi logA lik i (T - 1 - t)

/-- `HMM.viterbi` returns the triple `(mps, omega, psi)`, in the code's index
orders (`mps : n × t`, `omega : k × n × t`, `psi : k × n × t`). -/
noncomputable def viterbi (k T : ℕ) (pi : ℕ → ℝ) (A : ℕ → ℕ → ℝ)
    (lik : ℕ → ℕ → ℕ → ℝ) :
    (ℕ → ℕ → ℕ) × (ℕ → ℕ → ℕ → ℝ) × (ℕ → ℕ → ℕ → ℕ) :=
  (mpsV k T (fun u => Real.log (pi u)) (fun u v => Real.log (A u v)) lik,
    fun s i t => omegaV k (fun u => Real.log (pi u)) (fun u v => Real.log (A u v)) lik t s i,
    fun s i t => psiV k (fun u => Real.log (pi u)) (fun u v => Real.log (A u v)) lik s i t)

/-- **C6.** For every emission log-likelihood array and parameter set, the
Viterbi decoder computes, per subject: `trellis[s, 0] = log pi[s] + loglik[s, 0]`;
for later `t`, `trellis[s, t] = loglik[s, t] + max_u (log A[u, s] + trellis[u, t-1])`
with the argmax predecessor recorded (ties broken by the lowest state index:
the recorded index attains the maximum and every smaller index is strictly
below it); the terminal state is the first argmax of `trellis[:, T-1]`;
backtracking the predecessor table from `T-1` down to `0` produces the
returned path; and the function returns the path, the trellis, and the
predecessor table. -/
theorem viterbi_trellis_and_backtrack_correct (k T : ℕ) (pi : ℕ → ℝ)
    (A : ℕ → ℕ → ℝ) (lik : ℕ → ℕ → ℕ → ℝ) (hk : 0 < k) :
    (viterbi k T pi A lik =
        (mpsV k T (fun u => Real.log (pi u)) (fun u v => Real.log (A u v)) lik,
          fun s i t =>
            omegaV k (fun u => Real.log (pi u)) (fun u v => Real.log (A u v)) lik t s i,
          fun s i t =>
            psiV k (fun u => Real.log (pi u)) (fun u v => Real.log (A u v)) lik s i t)) ∧
      (∀ s i, omegaV k (fun u => Real.log (pi u)) (fun u v => Real.log (A u v)) lik 0 s i =
          Real.log (pi s) + lik s i 0) ∧
      (∀ s i t,
        omegaV k (fun u => Real.log (pi u)) (fun u v => Real.log (A u v)) lik (t + 1) s i =
          lik s i (t + 1) +
            vmax k (fun u => Real.log (A u s) +
              omegaV k (fun u' => Real.log (pi u')) (fun u' v => Real.log (A u' v)) lik t u i)) ∧
      (∀ s i t j, j < k →
        Real.log (A j s) +
            omegaV k (fun u => Real.log (pi u)) (fun u v => Real.log (A u v)) lik t j i ≤
          vmax k (fun u => Real.log (A u s) +
            omegaV k (fun u' => Real.log (pi u')) (fun u' v => Real.log (A u' v)) lik t u i)) ∧
      (∀ s i t,
        psiV k (fun u => Real.log (pi u)) (fun u v => Real.log (A u v)) lik s i (t + 1) < k ∧
          Real.log (A (psiV k (fun u => Real.log (pi u)) (fun u v => Real.log (A u v)) lik s i (t + 1)) s) +
              omegaV k (fun u => Real.log (pi u)) (fun u v => Real.log (A u v)) lik t
                (psiV k (fun u => Real.log (pi u)) (fun u v => Real.log (A u v)) lik s i (t + 1)) i =
            vmax k (fun u => Real.log (A u s) +
              omegaV k (fun u' => Real.log (pi u')) (fun u' v => Real.log (A u' v)) lik t u i) ∧
          ∀ j, j < psiV k (fun u => Real.log (pi u)) (fun u v => Real.log (A u v)) lik s i (t + 1) →
            Real.log (A j s) +
                omegaV k (fun u => Real.log (pi u)) (fun u v => Real.log (A u v)) lik t j i <
              vmax k (fun u => Real.log (A u s) +
                omegaV k (fun u' => Real.log (pi u')) (fun u' v => Real.log (A u' v)) lik t u i)) ∧
      (∀ i,
        mpsV k T (fun u => Real.log (pi u)) (fun u v => Real.log (A u v)) lik i (T - 1) < k ∧
          omegaV k (fun u => Real.log (pi u)) (fun u v => Real.log (A u v)) lik (T - 1)
              (mpsV k T (fun u => Real.log (pi u)) (fun u v => Real.log (A u v)) lik i (T - 1)) i =
            vmax k (fun s =>
              omegaV k (fun u => Real.log (pi u)) (fun u v => Real.log (A u v)) lik (T - 1) s i) ∧
          (∀ j, j < mpsV k T (fun u => Real.log (pi u)) (fun u v => Real.log (A u v)) lik i (T - 1) →
            omegaV k (fun u => Real.log (pi u)) (fun u v => Real.log (A u v)) lik (T - 1) j i <
              vmax k (fun s =>
                omegaV k (fun u => Real.log (pi u)) (fun u v => Real.log (A u v)) lik (T - 1) s i)) ∧
          ∀ j, j < k →
            omegaV k (fun u => Real.log (pi u)) (fun u v => Real.log (A u v)) lik (T - 1) j i ≤
              vmax k (fun s =>
                omegaV k (fun u => Real.log (pi u)) (fun u v => Real.log (A u v)) lik (T - 1) s i)) ∧
      ∀ i t, t + 1 ≤ T - 1 →
        mpsV k T (fun u => Real.log (pi u)) (fun u v => Real.log (A u v)) lik i t =
          psiV k (fun u => Real.log (pi u)) (fun u v => Real.log (A u v)) lik
            (mpsV k T (fun u => Real.log (pi u)) (fun u v => Real.log (A u v)) lik i (t + 1)) i
            (t + 1) := by
  refine ⟨rfl, fun s i => rfl, fun s i t => rfl, ?_, ?_, ?_, ?_⟩
  · intro s i t j hj
    exact le_vmax k
      (fun u => Real.log (A u s) +
        omegaV k (fun u' => Real.log (pi u')) (fun u' v => Real.log (A u' v)) lik t u i) j hj
  · intro s i t
    have hpsi : psiV k (fun u => Real.log (pi u)) (fun u v => Real.log (A u v)) lik s i (t + 1) =
        amax k (fun u => Real.log (A u s) +
          omegaV k (fun u' => Real.log (pi u')) (fun u' v => Real.log (A u' v)) lik t u i) := rfl
    rw [hpsi]
    exact ⟨amax_lt k hk _,
      f_amax_eq_vmax k hk
        (fun u => Real.log (A u s) +
          omegaV k (fun u' => Real.log (pi u')) (fun u' v => Real.log (A u' v)) lik t u i),
      fun j hj => lt_vmax_of_lt_amax k
        (fun u => Real.log (A u s) +
          omegaV k (fun u' => Real.log (pi u')) (fun u' v => Real.log (A u' v)) lik t u i) j hj⟩
  · intro i
    have h0 : mpsV k T (fun u => Real.log (pi u)) (fun u v => Real.log (A u v)) lik i (T - 1) =
        amax k (fun s =>
          omegaV k (fun u => Real.log (pi u)) (fun u v => Real.log (A u v)) lik (T - 1) s i) := by
      rw [mpsV, Nat.sub_self]
      rfl
    rw [h0]
    exact ⟨amax_lt k hk _,
      f_amax_eq_vmax k hk
        (fun s => omegaV k (fun u => Real.log (pi u)) (fun u v => Real.log (A u v)) lik (T - 1) s i),
      fun j hj => lt_vmax_of_lt_amax k
        (fun s => omegaV k (fun u => Real.log (pi u)) (fun u v => Real.log (A u v)) lik (T - 1) s i) j hj,
      fun j hj => le_vmax k
        (fun s => omegaV k (fun u => Real.log (pi u)) (fun u v => Real.log (A u v)) lik (T - 1) s i) j hj⟩
  · intro i t ht
    have h1 : T - 1 - t = (T - 1 - (t + 1)) + 1 := by omega
    have h2 : T - 1 - (T - 1 - (t + 1)) = t + 1 := by omega
    rw [mpsV, h1, mpsAux, h2]
    rfl

/-- Concrete instance discharging the `0 < k` hypothesis of the `C6` theorem. -/
theorem viterbi_trellis_and_backtrack_correct_witness :
    omegaV 1 (fun u => Real.log ((fun _ => (1 : ℝ)) u))
        (fun u v => Real.log ((fun _ _ => (1 : ℝ)) u v)) (fun _ _ _ => 0) 0 0 0 =
      Real.log ((1 : ℝ)) + (0 : ℝ) :=
  (viterbi_trellis_and_backtrack_correct 1 1 (fun _ => 1) (fun _ _ => 1)
    (fun _ _ _ => 0) (by norm_num)).2.1 0 0

/-- Modelled from the spec: the diagonal-path emission log-density claimed in
§4.1, `-1/2 * (Σ_l (r_l²/var_l + log var_l) + D·log(2π))`, i.e. the
normalisation constant `D·log(2π)` entering once with coefficient `-1/2`,
matching the full-covariance formula. -/
noncomputable def logGaussianDiagSpec (fl : Flags) (d : ℕ) (par : Params)
    (data : ℕ → ℕ → ℕ → ℝ) (ins : ℕ → ℕ → ℝ)
    (msample nsample : ℕ → ℕ → ℝ) (s i t : ℕ) : ℝ :=
  -(1 / 2) *
    ((∑ l ∈ Finset.range d,
        ((residual fl par.mu par.Vs par.Vp data ins msample nsample s i t l) ^ 2 / par.varD s l +
          Real.log (par.varD s l))) +
      d * Real.log (2 * Real.pi))

/-- **C4 (refuted; code bug).**  The diagonal branch of `log_gaussian` does
*not* add the normalisation constant with coefficient `-1/2`: it adds the full
`D·log(2π)` to every per-dimension term *after* the `-0.5 * (...)` product and
*before* the sum over dimensions, so the code's value exceeds the claimed
log-density by `(D² + D/2)·log(2π)` everywhere.  At the concrete failing input
(`D = 1`, zero residual, unit variance, all flags off) the code returns
`log(2π)` while the claimed formula gives `-1/2·log(2π)`, and the two differ. -/
theorem log_gaussian_diag_normalization_bug :
    (∀ fl d par data ins msample nsample s i t,
        logGaussianDiag fl d par data ins msample nsample s i t =
          logGaussianDiagSpec fl d par data ins msample nsample s i t +
            ((d : ℝ) ^ 2 + d / 2) * Real.log (2 * Real.pi)) ∧
      logGaussianDiag ⟨false, false, false, false, false, false, false, false⟩ 1
          ⟨fun _ _ => 0, fun _ _ => 1, fun _ _ _ => 0, fun _ => 1, fun _ _ => 1,
            fun _ _ => 0, fun _ => 0, 0, 0, 0, 0⟩
          (fun _ _ _ => 0) (fun _ _ => 0) (fun _ _ => 0) (fun _ _ => 0) 0 0 0 =
        Real.log (2 * Real.pi) ∧
      Real.log (2 * Real.pi) ≠
        logGaussianDiagSpec ⟨false, false, false, false, false, false, false, false⟩ 1
          ⟨fun _ _ => 0, fun _ _ => 1, fun _ _ _ => 0, fun _ => 1, fun _ _ => 1,
            fun _ _ => 0, fun _ => 0, 0, 0, 0, 0⟩
          (fun _ _ _ => 0) (fun _ _ => 0) (fun _ _ => 0) (fun _ _ => 0) 0 0 0 := by
  have hlogpos : 0 < Real.log (2 * Real.pi) := by
    have : (1 : ℝ) < 2 * Real.pi := by nlinarith [Real.pi_gt_three]
    exact Real.log_pos this
  refine ⟨?_, ?_, ?_⟩
  · intro fl d par data ins msample nsample s i t
    unfold logGaussianDiag logGaussianDiagSpec
    rw [Finset.sum_add_distrib, Finset.sum_const, Finset.card_range, nsmul_eq_mul]
    have hs : ∑ x ∈ Finset.range d,
        -(1 / 2) * (Real.log (par.varD s x) +
          (residual fl par.mu par.Vs par.Vp data ins msample nsample s i t x) ^ 2 / par.varD s x) =
        -(1 / 2) * ∑ l ∈ Finset.range d,
          ((residual fl par.mu par.Vs par.Vp data ins msample nsample s i t l) ^ 2 / par.varD s l +
            Real.log (par.varD s l)) := by
      rw [Finset.mul_sum]
      exact Finset.sum_congr rfl fun l _ => by ring
    rw [hs]
    ring
  · unfold logGaussianDiag residual
    norm_num
  · intro h
    unfold logGaussianDiagSpec residual at h
    norm_num at h
    linarith

/-! ## Failure behaviour of the full-covariance likelihood path (C2)

`log_gaussian` wraps only `L = torch.cholesky(var)` in a bare
`try/except` whose handler prints `var`, `mu`, `params['A']`, `params['V']`
and falls through. -/

/-- What the `except:` handler prints. -/
inductive Printed where
  | pvar (v : ℕ → ℕ → ℕ → ℝ)
  | pmu (m : ℕ → ℕ → ℝ)
  | pA (a : ℕ → ℕ → ℝ)
  | pV (vs : ℕ → ℕ → ℝ) (vp : ℕ → ℝ)

/-- Python runtime errors reachable in this branch, plus the
`NumericalInstabilityError` prescribed by the specification (modelled from the
spec: no such error type exists anywhere in the code; it would carry the
offending parameter snapshot). -/
inductive PyErr where
  | unboundLocal (name : String)
  | keyError (key : String)
  | numericalInstability (snapshot : Params)

/-- Success condition of `torch.cholesky` on the batch of `k` state covariance
matrices: every matrix positive definite (Sylvester's criterion on leading
principal minors). -/
def choleskyOK (k d : ℕ) (varF : ℕ → ℕ → ℕ → ℝ) : Prop :=
  ∀ s, s < k → ∀ m, m < d →
    0 < Matrix.det (Matrix.of fun a b : Fin (m + 1) => varF s a b)

open Classical in
/-- Control-flow model of the full-covariance branch of `log_gaussian`
(src/piohmm.py lines 271-296).  On factorization failure the bare `except:`
prints `var`, `mu`, `params['A']`, `params['V']` and execution falls through;
the factor `L` was never assigned, so the subsequent
`md = self.batch_mahalanobis(L, r)` raises `UnboundLocalError` for `L`.  When
`io` is off, `params` has no key `'V'` and the handler itself raises
`KeyError` after the first three prints.  On success the branch produces the
density values `logGaussianFull`. -/
noncomputable def logGaussianFullCovRun (fl : Flags) (k d : ℕ) (par : Params)
    (data : ℕ → ℕ → ℕ → ℝ) (ins : ℕ → ℕ → ℝ) (msample nsample : ℕ → ℕ → ℝ) :
    List Printed × Except PyErr (ℕ → ℕ → ℕ → ℝ) :=
  if choleskyOK k d par.varF then
    ([], Except.ok (logGaussianFull fl d par data ins msample nsample))
  else if fl.ioFlag then
    ([Printed.pvar par.varF, Printed.pmu par.mu, Printed.pA par.A, Printed.pV par.Vs par.Vp],
      Except.error (PyErr.unboundLocal "L"))
  else
    ([Printed.pvar par.varF, Printed.pmu par.mu, Printed.pA par.A],
      Except.error (PyErr.keyError "V"))

/-- **C2, counterexample.**  With a non-positive-definite state covariance
(the 1×1 matrix `[-1]`) on the full-covariance path with `io` on, the
likelihood evaluation prints the parameter snapshot, *continues past the
failed factorization*, and then fails with `UnboundLocalError` for `L` — not
with the `NumericalInstabilityError` the claim prescribes (in particular not
with one carrying this parameter snapshot). -/
theorem cholesky_failure_not_numerical_instability_cex :
    logGaussianFullCovRun ⟨true, true, false, false, false, false, false, false⟩ 1 1
        ⟨fun _ _ => 0, fun _ _ => 1, fun _ _ _ => -1, fun _ => 1, fun _ _ => 1,
          fun _ _ => 0, fun _ => 0, 0, 0, 0, 0⟩
        (fun _ _ _ => 0) (fun _ _ => 0) (fun _ _ => 0) (fun _ _ => 0) =
      ([Printed.pvar (fun _ _ _ => -1), Printed.pmu (fun _ _ => 0),
          Printed.pA (fun _ _ => 1), Printed.pV (fun _ _ => 0) (fun _ => 0)],
        Except.error (PyErr.unboundLocal "L")) ∧
      (logGaussianFullCovRun ⟨true, true, false, false, false, false, false, false⟩ 1 1
          ⟨fun _ _ => 0, fun _ _ => 1, fun _ _ _ => -1, fun _ => 1, fun _ _ => 1,
            fun _ _ => 0, fun _ => 0, 0, 0, 0, 0⟩
          (fun _ _ _ => 0) (fun _ _ => 0) (fun _ _ => 0) (fun _ _ => 0)).2 ≠
        Except.error (PyErr.numericalInstability
          ⟨fun _ _ => 0, fun _ _ => 1, fun _ _ _ => -1, fun _ => 1, fun _ _ => 1,
            fun _ _ => 0, fun _ => 0, 0, 0, 0, 0⟩) := by
  have hnot : ¬ choleskyOK 1 1 (fun _ _ _ => (-1 : ℝ)) := by
    intro h
    have h0 := h 0 one_pos 0 one_pos
    rw [Matrix.det_fin_one] at h0
    norm_num at h0
  constructor
  · rw [logGaussianFullCovRun, if_neg hnot]
    rfl
  · rw [logGaussianFullCovRun, if_neg hnot]
    intro h
    simp at h

/-- **C2, amended.**  On the full-covariance path with `io` enabled, a failed
Cholesky factorization makes the likelihood evaluation print the offending
parameter snapshot (`var`, `mu`, `A`, `V`), continue, and then fail with an
`UnboundLocalError` for the never-assigned factor `L`; no
`NumericalInstabilityError` is raised anywhere. -/
theorem cholesky_failure_prints_snapshot_then_unbound_local
    (fl : Flags) (k d : ℕ) (par : Params)
    (data : ℕ → ℕ → ℕ → ℝ) (ins : ℕ → ℕ → ℝ) (msample nsample : ℕ → ℕ → ℝ)
    (hio : fl.ioFlag = true) (hchol : ¬ choleskyOK k d par.varF) :
    logGaussianFullCovRun fl k d par data ins msample nsample =
      ([Printed.pvar par.varF, Printed.pmu par.mu, Printed.pA par.A,
          Printed.pV par.Vs par.Vp],
        Except.error (PyErr.unboundLocal "L")) := by
  rw [logGaussianFullCovRun, if_neg hchol, hio]
  rfl

/-- Concrete instance discharging the hypotheses of the amended `C2`
theorem. -/
theorem cholesky_failure_prints_snapshot_then_unbound_local_witness :
    ¬ choleskyOK 1 1 (fun _ _ _ => (-1 : ℝ)) ∧
      logGaussianFullCovRun ⟨true, true, false, false, false, false, false, false⟩ 1 1
          ⟨fun _ _ => 0, fun _ _ => 1, fun _ _ _ => -1, fun _ => 1, fun _ _ => 1,
            fun _ _ => 0, fun _ => 0, 0, 0, 0, 0⟩
          (fun _ _ _ => 0) (fun _ _ => 0) (fun _ _ => 0) (fun _ _ => 0) =
        ([Printed.pvar (fun _ _ _ => -1), Printed.pmu (fun _ _ => 0),
            Printed.pA (fun _ _ => 1), Printed.pV (fun _ _ => 0) (fun _ => 0)],
          Except.error (PyErr.unboundLocal "L")) := by
  have hnot : ¬ choleskyOK 1 1 (fun _ _ _ => (-1 : ℝ)) := by
    intro h
    have h0 := h 0 one_pos 0 one_pos
    rw [Matrix.det_fin_one] at h0
    norm_num at h0
  exact ⟨hnot,
    cholesky_failure_prints_snapshot_then_unbound_local
      ⟨true, true, false, false, false, false, false, false⟩ 1 1
      ⟨fun _ _ => 0, fun _ _ => 1, fun _ _ _ => -1, fun _ => 1, fun _ _ => 1,
        fun _ _ => 0, fun _ => 0, 0, 0, 0, 0⟩
      (fun _ _ _ => 0) (fun _ _ => 0) (fun _ _ => 0) (fun _ _ => 0) rfl hnot⟩

/-! ## Training loop (`HMM.learn_model`, src/piohmm.py lines 899-958)

The EM round itself is abstracted by the functions `eStepF`/`mStepF`/`pXof`;
the claim is about the loop's control flow.  The Python local `e_out` is first
assigned inside the `for` loop, and every `return` statement of `learn_model`
mentions `e_out`; it is modelled as an `Option` that starts out `none`
(unbound).  `prev_cost` starts at `float('inf')` (`none` here: the first
finite-tolerance convergence comparison never succeeds against infinity). -/
noncomputable def learnLoop {P E S : Type} (eStepF : P → E × P × S)
    (mStepF : E → P → S → P) (pXof : E → ℝ) (useCc : Bool) (cc : ℝ) :
    ℕ → P → Option E → Option ℝ → List ℝ → P × Option E × List ℝ
  | 0, p, eo, _, ll => (p, eo, ll)
  | n + 1, p, _, prev, ll =>
      let out := eStepF p
      let obj := pXof out.1
      match useCc, prev with
      | true, some pc =>
          if |pc - obj| < cc then
            (out.2.1, some out.1, ll ++ [obj])
          else
            learnLoop eStepF mStepF pXof useCc cc n
              (mStepF out.1 out.2.1 out.2.2) (some out.1) (some obj) (ll ++ [obj])
      | _, _ =>
          learnLoop eStepF mStepF pXof useCc cc n
            (mStepF out.1 out.2.1 out.2.2) (some out.1) (some obj) (ll ++ [obj])

/-- `HMM.learn_model` with `load_model=False`: `params = initialize_model()`
(the initializer's output `initP` is an input — it is produced by k-means on
random seeds), then the EM loop, then a `return` whose tuple mentions `e_out`
in every flag configuration. -/
noncomputable def learnModelRun {P E S : Type} (eStepF : P → E × P × S)
    (mStepF : E → P → S → P) (pXof : E → ℝ) (useCc : Bool) (cc : ℝ)
    (initP : P) (numIter : ℕ) : Except PyErr (P × E × List ℝ) :=
  match learnLoop eStepF mStepF pXof useCc cc numIter initP none none [] with
  | (p, some e, ll) => Except.ok (p, e, ll)
  | (_, none, _) => Except.error (PyErr.unboundLocal "e_out")

/-- **C8, counterexample.**  With an iteration budget of zero, `learn_model`
does not return the initialization parameters at all: the `return` statement
evaluates the never-assigned loop local `e_out` and raises
`UnboundLocalError`. -/
theorem learn_model_zero_iterations_cex :
    learnModelRun (P := Unit) (E := Unit) (S := Unit)
        (fun _ => ((), (), ())) (fun _ _ _ => ()) (fun _ => 0) false 0 () 0 =
      Except.error (PyErr.unboundLocal "e_out") := rfl

/-- **C8, amended.**  With an iteration budget of zero no E-step and no M-step
is executed and the parameters are left untouched — the result is the same
whatever `eStepF` and `mStepF` are and never depends on them — but instead of
returning the initialization parameters the call raises `UnboundLocalError`
on `e_out`. -/
theorem learn_model_zero_iterations_unbound_local {P E S : Type}
    (eStepF : P → E × P × S) (mStepF : E → P → S → P) (pXof : E → ℝ)
    (useCc : Bool) (cc : ℝ) (initP : P) :
    learnModelRun eStepF mStepF pXof useCc cc initP 0 =
      Except.error (PyErr.unboundLocal "e_out") := rfl

/-! ## Construction (`HMM.__init__`, src/piohmm.py lines 11-167) and dataset
replacement (`HMM.change_data`, src/piohmm.py lines 1180-1287)

The mutable `self` state relevant to these claims.  `device` and `sample_num`
are omitted (plain stored scalars).  Attributes that a configuration does not
create (e.g. `nu_hat` when `personalized=False`) are modelled as their
zero-initialised defaults. -/
structure HMMState where
  k : ℕ
  n : ℕ
  tLen : ℕ
  d : ℕ
  fl : Flags
  viDiag : Bool
  eps : ℝ
  minVar : ℝ
  iniVar : ℝ
  alphaIG : ℝ
  betaIG : ℝ
  data : ℕ → ℕ → ℕ → ℝ
  insM : Option (ℕ → ℕ → ℝ)
  tm : ℕ → ℕ → ℝ
  om : ℕ → ℕ → ℝ
  elbo : List ℝ
  muHat : ℕ → ℕ → ℝ
  trilVec : ℕ → ℝ
  LHat : ℕ → ℕ → ℕ → ℝ
  nuHat : ℕ → ℕ → ℝ
  trilN : ℕ → ℝ
  NHat : ℕ → ℕ → ℕ → ℝ

/-- Scatter of the packed optimisation vector into the `n × d × d` batch of
lower-triangular Cholesky factors: boolean-mask assignment
`L[torch.tril(ones) == 1] = vec` fills the masked positions in row-major
order (`d*(d+1)/2` per matrix), and the `VI_diag` variant fills only the
diagonal (`d` per matrix). -/
def trilScatter (d : ℕ) (viDiag : Bool) (vec : ℕ → ℝ) (i a b : ℕ) : ℝ :=
  if viDiag then (if a = b then vec (i * d + a) else 0)
  else if b ≤ a then vec (i * (d * (d + 1) / 2) + (a * (a + 1) / 2 + b)) else 0

/-- Errors at construction.  `invalidConfiguration` is modelled from the spec
(§6: "Invalid combinations … must be rejected at construction",
§7: `InvalidConfigurationError`): no such rejection or error type exists in
the code.  `attributeError` is the Python error from `ins.to(device)` when
`io=True` and `ins is None`. -/
inductive InitErr where
  | attributeError (msg : String)
  | invalidConfiguration

def isOkE {ε α : Type} : Except ε α → Bool
  | Except.ok _ => true
  | Except.error _ => false

/-- `HMM.__init__`: stores the flags and data, sets up the variational
parameters for the enabled personalized effects (standard-normal draws
`randL`/`randN` scaled by the code's constants, scattered into the triangular
factors), defaults missing masks to all-ones, and performs **no validation of
flag combinations whatsoever**.  The only failure on the flag paths is the
`AttributeError` when `io=True` but `ins` is `None`. -/
noncomputable def hmmInit (k n tl d : ℕ) (fl : Flags) (viDiag : Bool)
    (eps minVar varFill alphaIG betaIG : ℝ)
    (data : ℕ → ℕ → ℕ → ℝ) (insOpt : Option (ℕ → ℕ → ℝ))
    (TMopt OMopt : Option (ℕ → ℕ → ℝ)) (randL randN : ℕ → ℝ) :
    Except InitErr HMMState :=
  if fl.ioFlag && insOpt.isNone then
    Except.error (InitErr.attributeError "NoneType object has no attribute to")
  else
    let scaleL : ℝ := if fl.persoIo && fl.perso then 0.01 else if viDiag then 0.01 else 0.1
    let scaleN : ℝ := if fl.persoIo && fl.perso then 0.01 else if viDiag then 0.01 else 0.1
    let trilVec : ℕ → ℝ := if fl.persoIo then fun j => scaleL * randL j else fun _ => 0
    let trilN : ℕ → ℝ := if fl.perso then fun j => scaleN * randN j else fun _ => 0
    Except.ok
      { k := k, n := n, tLen := tl, d := d, fl := fl, viDiag := viDiag,
        eps := eps, minVar := minVar, iniVar := varFill,
        alphaIG := alphaIG, betaIG := betaIG,
        data := data,
        insM := if fl.ioFlag then insOpt else none,
        tm := (match TMopt with | none => fun _ _ => 1 | some m => m),
        om := (match OMopt with | none => fun _ _ => 1 | some m => m),
        elbo := [],
        muHat := fun _ _ => 0,
        trilVec := trilVec,
        LHat := if fl.persoIo then trilScatter d viDiag trilVec else fun _ _ _ => 0,
        nuHat := fun _ _ => 0,
        trilN := trilN,
        NHat := if fl.perso then trilScatter d viDiag trilN else fun _ _ _ => 0 }

/-- **C9, counterexample.**  The invalid flag combination
`personalized_io=True` with `io=False` (the docstring itself says "This flag
should not be True if io=False") is accepted: construction succeeds — it does
not fail fast with an `InvalidConfigurationError`. -/
theorem init_accepts_invalid_flag_combination_cex :
    isOkE (hmmInit 3 2 4 2
        ⟨false, false, false, true, false, false, false, false⟩ false
        0 (1e-6) (0.5) 10 5 (fun _ _ _ => 0) none none none
        (fun _ => 0) (fun _ => 0)) = true := rfl

/-- **C9, amended.**  `HMM.__init__` performs no validation of configuration
flags: no flag combination is ever rejected with an
`InvalidConfigurationError` (the type does not exist in the code); the only
constructor failure on the flag paths is the unrelated `AttributeError` when
`io=True` and no input array is supplied. -/
theorem init_never_rejects_flag_combinations
    (k n tl d : ℕ) (fl : Flags) (viDiag : Bool)
    (eps minVar varFill alphaIG betaIG : ℝ)
    (data : ℕ → ℕ → ℕ → ℝ) (insOpt : Option (ℕ → ℕ → ℝ))
    (TMopt OMopt : Option (ℕ → ℕ → ℝ)) (randL randN : ℕ → ℝ) :
    hmmInit k n tl d fl viDiag eps minVar varFill alphaIG betaIG data insOpt
        TMopt OMopt randL randN ≠
      Except.error InitErr.invalidConfiguration := by
  unfold hmmInit
  split
  · intro h
    cases h
  · intro h
    cases h

/-- `HMM.change_data` (src/piohmm.py lines 1180-1287): stores the new data,
re-reads `n` and `t` from its shape (but never `d`), updates `ins` when the
model is input-output, defaults each omitted mask to all-ones of the new
shape, and — only when `reset_VI` is set and a personalized effect is enabled
— clears the ELBO trace and re-draws the variational posterior parameters
(means from `sqrt(noise) * randn`, packed factor vectors from
`0.01 * randn`, scattered into the triangular factors). -/
noncomputable def changeData (s : HMMState) (n' t' : ℕ) (data' : ℕ → ℕ → ℕ → ℝ)
    (insOpt : Option (ℕ → ℕ → ℝ)) (OMopt TMopt : Option (ℕ → ℕ → ℝ))
    (resetVI : Bool) (mnoiseP nnoiseP : ℝ)
    (randMu randLv randNu randNv : ℕ → ℝ) : HMMState :=
  let base := { s with
    data := data'
    n := n'
    tLen := t'
    insM := if s.fl.ioFlag then insOpt else s.insM
    tm := (match TMopt with | none => fun _ _ => 1 | some m => m)
    om := (match OMopt with | none => fun _ _ => 1 | some m => m) }
  if resetVI && s.fl.persoIo && s.fl.perso then
    { base with
      elbo := []
      muHat := fun i l => Real.sqrt mnoiseP * randMu (i * s.d + l)
      trilVec := fun j => 0.01 * randLv j
      LHat := trilScatter s.d s.viDiag (fun j => 0.01 * randLv j)
      nuHat := fun i l => Real.sqrt nnoiseP * randNu (i * s.d + l)
      trilN := fun j => 0.01 * randNv j
      NHat := trilScatter s.d s.viDiag (fun j => 0.01 * randNv j) }
  else if resetVI && s.fl.persoIo then
    { base with
      elbo := []
      muHat := fun i l => Real.sqrt mnoiseP * randMu (i * s.d + l)
      trilVec := fun j => 0.01 * randLv j
      LHat := trilScatter s.d s.viDiag (fun j => 0.01 * randLv j) }
  else if resetVI && s.fl.perso then
    { base with
      elbo := []
      nuHat := fun i l => Real.sqrt nnoiseP * randNu (i * s.d + l)
      trilN := fun j => 0.01 * randNv j
      NHat := trilScatter s.d s.viDiag (fun j => 0.01 * randNv j) }
  else base

/-- **C10.**  Every dataset replacement updates the stored data, the subject
count `n`, the time length `t` and both masks from the new dataset (an
omitted mask defaulting to all-ones); the variational posterior parameters
(and the ELBO trace) are re-drawn only when the reset flag is set *and* a
personalized effect is enabled — and are then actual re-draws; and the
observation dimension `d` is never recomputed from the new dataset, so the
dimension fixed at construction persists across every dataset swap. -/
theorem change_data_updates_and_preserves_d (s : HMMState) (n' t' : ℕ)
    (data' : ℕ → ℕ → ℕ → ℝ) (insOpt : Option (ℕ → ℕ → ℝ))
    (OMopt TMopt : Option (ℕ → ℕ → ℝ)) (resetVI : Bool) (mnoiseP nnoiseP : ℝ)
    (randMu randLv randNu randNv : ℕ → ℝ) :
    ((changeData s n' t' data' insOpt OMopt TMopt resetVI mnoiseP nnoiseP
        randMu randLv randNu randNv).data = data' ∧
      (changeData s n' t' data' insOpt OMopt TMopt resetVI mnoiseP nnoiseP
        randMu randLv randNu randNv).n = n' ∧
      (changeData s n' t' data' insOpt OMopt TMopt resetVI mnoiseP nnoiseP
        randMu randLv randNu randNv).tLen = t') ∧
    ((changeData s n' t' data' insOpt OMopt TMopt resetVI mnoiseP nnoiseP
        randMu randLv randNu randNv).tm =
          (match TMopt with | none => fun _ _ => 1 | some m => m) ∧
      (changeData s n' t' data' insOpt OMopt TMopt resetVI mnoiseP nnoiseP
        randMu randLv randNu randNv).om =
          (match OMopt with | none => fun _ _ => 1 | some m => m)) ∧
    (changeData s n' t' data' insOpt OMopt TMopt resetVI mnoiseP nnoiseP
        randMu randLv randNu randNv).d = s.d ∧
    (¬(resetVI = true ∧ (s.fl.persoIo = true ∨ s.fl.perso = true)) →
      (changeData s n' t' data' insOpt OMopt TMopt resetVI mnoiseP nnoiseP
          randMu randLv randNu randNv).muHat = s.muHat ∧
        (changeData s n' t' data' insOpt OMopt TMopt resetVI mnoiseP nnoiseP
          randMu randLv randNu randNv).trilVec = s.trilVec ∧
        (changeData s n' t' data' insOpt OMopt TMopt resetVI mnoiseP nnoiseP
          randMu randLv randNu randNv).LHat = s.LHat ∧
        (changeData s n' t' data' insOpt OMopt TMopt resetVI mnoiseP nnoiseP
          randMu randLv randNu randNv).nuHat = s.nuHat ∧
        (changeData s n' t' data' insOpt OMopt TMopt resetVI mnoiseP nnoiseP
          randMu randLv randNu randNv).trilN = s.trilN ∧
        (changeData s n' t' data' insOpt OMopt TMopt resetVI mnoiseP nnoiseP
          randMu randLv randNu randNv).NHat = s.NHat ∧
        (changeData s n' t' data' insOpt OMopt TMopt resetVI mnoiseP nnoiseP
          randMu randLv randNu randNv).elbo = s.elbo) ∧
    (resetVI = true → s.fl.persoIo = true →
      (changeData s n' t' data' insOpt OMopt TMopt resetVI mnoiseP nnoiseP
        randMu randLv randNu randNv).muHat =
          fun i l => Real.sqrt mnoiseP * randMu (i * s.d + l)) ∧
    (resetVI = true → s.fl.perso = true →
      (changeData s n' t' data' insOpt OMopt TMopt resetVI mnoiseP nnoiseP
        randMu randLv randNu randNv).nuHat =
          fun i l => Real.sqrt nnoiseP * randNu (i * s.d + l)) := by
  cases hR : resetVI <;> cases hIo : s.fl.persoIo <;> cases hP : s.fl.perso <;>
    simp [changeData, hR, hIo, hP]

/-- Concrete instance discharging the conditional clauses of the `C10`
theorem: with the reset flag set and the personalized input-output effect
enabled, the variational mean is re-drawn from the supplied noise draws. -/
theorem change_data_updates_and_preserves_d_witness :
    (changeData
        ⟨2, 3, 4, 5, ⟨false, false, false, true, false, false, false, false⟩, false,
          0, 0, 0, 0, 0, fun _ _ _ => 0, none, fun _ _ => 1, fun _ _ => 1, [],
          fun _ _ => 0, fun _ => 0, fun _ _ _ => 0, fun _ _ => 0, fun _ => 0,
          fun _ _ _ => 0⟩
        7 8 (fun _ _ _ => 2) none none none true 4 9
        (fun (j : ℕ) => (j : ℝ)) (fun _ => 0) (fun _ => 0) (fun _ => 0)).muHat =
      fun (i l : ℕ) => Real.sqrt 4 * ((fun (j : ℕ) => (j : ℝ)) (i * 5 + l)) :=
  ((change_data_updates_and_preserves_d
      ⟨2, 3, 4, 5, ⟨false, false, false, true, false, false, false, false⟩, false,
        0, 0, 0, 0, 0, fun _ _ _ => 0, none, fun _ _ => 1, fun _ _ => 1, [],
        fun _ _ => 0, fun _ => 0, fun _ _ _ => 0, fun _ _ => 0, fun _ => 0,
        fun _ _ _ => 0⟩
      7 8 (fun _ _ _ => 2) none none none true 4 9
      (fun (j : ℕ) => (j : ℝ)) (fun _ => 0) (fun _ => 0) (fun _ => 0)).2.2.2.2.1) rfl rfl

/-! ## M-step transition matrix update (`HMM.m_step`, src/piohmm.py 855-866)

The transition update works in the log domain where `-inf` genuinely occurs:
`logA = params['A'].log()` is `-inf` at an exactly-zero transition entry and
the code deliberately propagates it (the masking line `xi = xi*self.tm[...]`
is commented out in `e_step`).  The log domain is therefore modelled as
`EReal`, with `EReal.exp : EReal → ℝ≥0∞` and `ENNReal.log` inverse to it. -/

/-- `torch.log` on a float entry: `-inf` at `0` (all uses here have
nonnegative inputs). -/
noncomputable def logTorch (x : ℝ) : EReal := ENNReal.log (ENNReal.ofReal x)

/-- The pairwise log transition marginal `xi` of `HMM.e_step`
(src/piohmm.py line 672):
`xi = alpha[:, None, :, :-1] + beta[None, :, :, 1:] + likelihood[None, :, :, 1:]
+ logA[:, :, None, None] - scaling[None, None, :, 1:]`, i.e.
`xi[i, j, n, t] = alpha[i, n, t] + beta[j, n, t+1] + lik[j, n, t+1]
+ log A[i, j] - scaling[n, t+1]`. -/
noncomputable def eStepXi (alpha beta lik : ℕ → ℕ → ℕ → ℝ) (scal : ℕ → ℕ → ℝ)
    (Aprev : ℕ → ℕ → ℝ) (i j n t : ℕ) : EReal :=
  (alpha i n t : ℝ) + (beta j n (t + 1) : ℝ) + (lik j n (t + 1) : ℝ) +
    logTorch (Aprev i j) - (scal n (t + 1) : ℝ)

/-- Sum of exponentials over the positions selected by
`torch.masked_select(·, om[:, 1:].byte())`: positions with mask entry `0` are
excluded from the logsumexp, i.e. contribute nothing to the sum. -/
noncomputable def maskSumExp (N T1 : ℕ) (om : ℕ → ℕ → ℝ) (f : ℕ → ℕ → EReal) :
    ℝ≥0∞ :=
  ∑ p ∈ Finset.range N ×ˢ Finset.range T1,
    if om p.1 (p.2 + 1) = 0 then 0 else EReal.exp (f p.1 p.2)

/-- `logA` of the M-step (src/piohmm.py lines 857-861):
`logA[i, j] = logsumexp(masked_select(xi[i, j, :, :], om[:, 1:]))
- logsumexp(masked_select(xi[i, :, :, :], om[None, :, 1:]))`
(`torch.logsumexp` over an empty or all-`-inf` selection is `-inf`). -/
noncomputable def mStepLogA (K N T1 : ℕ) (om : ℕ → ℕ → ℝ)
    (xi : ℕ → ℕ → ℕ → ℕ → EReal) (i j : ℕ) : EReal :=
  ENNReal.log (maskSumExp N T1 om (fun n t => xi i j n t)) -
    ENNReal.log (∑ j' ∈ Finset.range K, maskSumExp N T1 om (fun n t => xi i j' n t))

/-- The returned transition matrix (src/piohmm.py lines 862-866):
`A = logA.exp() + self.eps*torch.triu(torch.ones(k, k))` when `self.ut`, and
`A = logA.exp() + self.eps` otherwise. -/
noncomputable def mStepA (K N T1 : ℕ) (eps : ℝ) (ut : Bool) (om : ℕ → ℕ → ℝ)
    (xi : ℕ → ℕ → ℕ → ℕ → EReal) (i j : ℕ) : ℝ :=
  (EReal.exp (mStepLogA K N T1 om xi i j)).toReal +
    (if ut then (if i ≤ j then eps else 0) else eps)

lemma exp_log_sub_log (a b : ℝ≥0∞) :
    EReal.exp (ENNReal.log a - ENNReal.log b) = a / b := by
  rw [sub_eq_add_neg, EReal.exp_add, EReal.exp_neg, ENNReal.exp_log, ENNReal.exp_log,
    div_eq_mul_inv]

lemma eStepXi_of_pos (alpha beta lik : ℕ → ℕ → ℕ → ℝ) (scal : ℕ → ℕ → ℝ)
    (Aprev : ℕ → ℕ → ℝ) (i j n t : ℕ) (h : 0 < Aprev i j) :
    eStepXi alpha beta lik scal Aprev i j n t =
      ((alpha i n t + beta j n (t + 1) + lik j n (t + 1) + Real.log (Aprev i j) -
        scal n (t + 1) : ℝ) : EReal) := by
  unfold eStepXi logTorch
  rw [ENNReal.log_ofReal_of_pos h, ← EReal.coe_add, ← EReal.coe_add, ← EReal.coe_add,
    ← EReal.coe_sub]

lemma eStepXi_of_nonpos (alpha beta lik : ℕ → ℕ → ℕ → ℝ) (scal : ℕ → ℕ → ℝ)
    (Aprev : ℕ → ℕ → ℝ) (i j n t : ℕ) (h : Aprev i j ≤ 0) :
    eStepXi alpha beta lik scal Aprev i j n t = ⊥ := by
  unfold eStepXi logTorch
  rw [ENNReal.ofReal_eq_zero.mpr h, ENNReal.log_zero, EReal.add_bot, sub_eq_add_neg,
    EReal.bot_add]

lemma eStepXi_ne_top (alpha beta lik : ℕ → ℕ → ℕ → ℝ) (scal : ℕ → ℕ → ℝ)
    (Aprev : ℕ → ℕ → ℝ) (i j n t : ℕ) :
    eStepXi alpha beta lik scal Aprev i j n t ≠ ⊤ := by
  rcases le_or_lt (Aprev i j) 0 with h | h
  · rw [eStepXi_of_nonpos alpha beta lik scal Aprev i j n t h]
    exact bot_ne_top
  · rw [eStepXi_of_pos alpha beta lik scal Aprev i j n t h]
    exact EReal.coe_ne_top _

/-- **C5.**  After one M-step with `epsilon = 0`, every row of the returned
transition matrix sums to 1 (provided the row receives some mass: at least
one observation-mask-selected position whose previous-transition entry is
positive), and — when the upper-triangular constraint is active, so that the
previous transition matrix has zero entries below the diagonal — every
sub-diagonal entry of the returned matrix is exactly `0`: those entries enter
the counts as zeros before the row-normalising logsumexp denominator is
applied. -/
theorem m_step_A_rows_sum_to_one_and_triangular
    (K N T1 : ℕ) (ut : Bool) (om : ℕ → ℕ → ℝ)
    (alpha beta lik : ℕ → ℕ → ℕ → ℝ) (scal : ℕ → ℕ → ℝ) (Aprev : ℕ → ℕ → ℝ)
    (hrow : ∀ i, i < K → ∃ j n t, j < K ∧ n < N ∧ t < T1 ∧
      om n (t + 1) ≠ 0 ∧ 0 < Aprev i j) :
    (∀ i, i < K →
      ∑ j ∈ Finset.range K,
        mStepA K N T1 0 ut om (eStepXi alpha beta lik scal Aprev) i j = 1) ∧
    ((∀ i' j', j' < i' → Aprev i' j' = 0) →
      ∀ i j, j < i →
        mStepA K N T1 0 true om (eStepXi alpha beta lik scal Aprev) i j = 0) := by
  have hepsA : ∀ (u : Bool) (i j : ℕ),
      (if u then (if i ≤ j then (0 : ℝ) else 0) else 0) = 0 := by
    intro u i j
    cases u <;> simp
  constructor
  · intro i hi
    obtain ⟨j0, n0, t0, hj0, hn0, ht0, hom0, hA0⟩ := hrow i hi
    set E : ℕ → ℝ≥0∞ := fun j =>
      maskSumExp N T1 om (fun n t => eStepXi alpha beta lik scal Aprev i j n t) with hE
    set S : ℝ≥0∞ := ∑ j' ∈ Finset.range K, E j' with hS
    have hEnt : ∀ j, E j ≠ ⊤ := by
      intro j
      rw [hE]
      unfold maskSumExp
      rw [ENNReal.sum_ne_top]
      intro p _
      split
      · exact ENNReal.zero_ne_top
      · rw [Ne, EReal.exp_eq_top_iff]
        exact eStepXi_ne_top alpha beta lik scal Aprev i j p.1 p.2
    have hSnt : S ≠ ⊤ := by
      rw [hS, ENNReal.sum_ne_top]
      intro j _
      exact hEnt j
    have hSne : S ≠ 0 := by
      intro h0
      rw [hS, Finset.sum_eq_zero_iff] at h0
      have hEj0 : E j0 = 0 := h0 j0 (Finset.mem_range.mpr hj0)
      rw [hE] at hEj0
      unfold maskSumExp at hEj0
      rw [Finset.sum_eq_zero_iff] at hEj0
      have hmem : ((n0, t0) : ℕ × ℕ) ∈ Finset.range N ×ˢ Finset.range T1 := by
        rw [Finset.mem_product]
        exact ⟨Finset.mem_range.mpr hn0, Finset.mem_range.mpr ht0⟩
      have h1 := hEj0 (n0, t0) hmem
      rw [if_neg hom0] at h1
      have h1' : eStepXi alpha beta lik scal Aprev i j0 n0 t0 = ⊥ :=
        EReal.exp_eq_zero_iff.mp h1
      rw [eStepXi_of_pos alpha beta lik scal Aprev i j0 n0 t0 hA0] at h1'
      exact EReal.coe_ne_bot _ h1'
    have hAval : ∀ j,
        mStepA K N T1 0 ut om (eStepXi alpha beta lik scal Aprev) i j =
          (E j / S).toReal := by
      intro j
      unfold mStepA mStepLogA
      rw [exp_log_sub_log, hepsA, add_zero]
    have hdivnt : ∀ j, E j / S ≠ ⊤ := by
      intro j h
      rcases ENNReal.div_eq_top.mp h with ⟨-, h2⟩ | ⟨h1, -⟩
      · exact hSne h2
      · exact hEnt j h1
    calc ∑ j ∈ Finset.range K,
          mStepA K N T1 0 ut om (eStepXi alpha beta lik scal Aprev) i j
        = ∑ j ∈ Finset.range K, (E j / S).toReal :=
          Finset.sum_congr rfl fun j _ => hAval j
      _ = (∑ j ∈ Finset.range K, E j / S).toReal :=
          (ENNReal.toReal_sum fun j _ => hdivnt j).symm
      _ = (S / S).toReal := by
          have hsum : ∑ j ∈ Finset.range K, E j / S = S / S := by
            simp only [div_eq_mul_inv]
            rw [← Finset.sum_mul, ← hS]
          rw [hsum]
      _ = 1 := by rw [ENNReal.div_self hSne hSnt, ENNReal.one_toReal]
  · intro hAprev i j hji
    unfold mStepA mStepLogA
    have hE0 : maskSumExp N T1 om
        (fun n t => eStepXi alpha beta lik scal Aprev i j n t) = 0 := by
      unfold maskSumExp
      refine Finset.sum_eq_zero fun p _ => ?_
      split
      · rfl
      · exact EReal.exp_eq_zero_iff.mpr
          (eStepXi_of_nonpos alpha beta lik scal Aprev i j p.1 p.2
            (le_of_eq (hAprev i j hji)))
    rw [hE0, ENNReal.log_zero, sub_eq_add_neg, EReal.bot_add, EReal.exp_bot,
      ENNReal.zero_toReal, if_neg (by omega : ¬ i ≤ j)]
    simp

/-- Concrete instance discharging the hypotheses of the `C5` theorem
(`K = 2`, one subject, two time points, all-ones observation mask, previous
transition matrix upper triangular with positive upper entries). -/
theorem m_step_A_rows_sum_to_one_and_triangular_witness :
    (∑ j ∈ Finset.range 2,
        mStepA 2 1 1 0 true (fun _ _ => 1)
          (eStepXi (fun _ _ _ => 0) (fun _ _ _ => 0) (fun _ _ _ => 0) (fun _ _ => 0)
            (fun i j => if j < i then 0 else 1)) 0 j = 1) ∧
      mStepA 2 1 1 0 true (fun _ _ => 1)
        (eStepXi (fun _ _ _ => 0) (fun _ _ _ => 0) (fun _ _ _ => 0) (fun _ _ => 0)
          (fun i j => if j < i then 0 else 1)) 1 0 = 0 := by
  have hrow : ∀ i, i < 2 → ∃ j n t, j < 2 ∧ n < 1 ∧ t < 1 ∧
      (fun _ _ => (1 : ℝ)) n (t + 1) ≠ 0 ∧
      0 < (fun i' j' => if j' < i' then (0 : ℝ) else 1) i j := by
    intro i hi
    exact ⟨i, 0, 0, hi, Nat.zero_lt_one, Nat.zero_lt_one, one_ne_zero, by simp⟩
  refine ⟨?_, ?_⟩
  · exact (m_step_A_rows_sum_to_one_and_triangular 2 1 1 true (fun _ _ => 1)
      (fun _ _ _ => 0) (fun _ _ _ => 0) (fun _ _ _ => 0) (fun _ _ => 0)
      (fun i j => if j < i then 0 else 1) hrow).1 0 Nat.zero_lt_two
  · exact (m_step_A_rows_sum_to_one_and_triangular 2 1 1 true (fun _ _ => 1)
      (fun _ _ _ => 0) (fun _ _ _ => 0) (fun _ _ _ => 0) (fun _ _ => 0)
      (fun i j => if j < i then 0 else 1) hrow).2
      (fun i' j' h => if_pos h) 1 0 Nat.zero_lt_one

/-! ## Full M-step (`HMM.m_step`, src/piohmm.py lines 701-897)

Each quantity of `m_step` is a top-level definition named after the source
variable it embeds.  `luSolve` abstracts `torch.lu_solve(num, *torch.lu(denom))`
(a `k × d` right-hand side against a batch of `k` `d × d` matrices); it enters
only through its two arguments, which suffices for the equality claims. -/

/-- `N_k1 = ((gamma[:, :, 0].exp())*om[None, :, 0]).sum(1)`. -/
noncomputable def mStepNk1 (N : ℕ) (om : ℕ → ℕ → ℝ) (gamma : ℕ → ℕ → ℕ → ℝ)
    (s : ℕ) : ℝ :=
  ∑ n ∈ Finset.range N, Real.exp (gamma s n 0) * om n 0

/-- `N_k = ((gamma.exp())*om[None, :, :]).sum(-1).sum(-1)`. -/
noncomputable def mStepNk (N T : ℕ) (om : ℕ → ℕ → ℝ) (gamma : ℕ → ℕ → ℕ → ℝ)
    (s : ℕ) : ℝ :=
  ∑ n ∈ Finset.range N, ∑ t ∈ Finset.range T, Real.exp (gamma s n t) * om n t

/-- `torch.sum(gamma.exp(), (1,2))` — the *unmasked* occupancy used in the
denominator of the diagonal `priorMu` branch (src/piohmm.py lines 761-763). -/
noncomputable def mStepG (N T : ℕ) (gamma : ℕ → ℕ → ℕ → ℝ) (s : ℕ) : ℝ :=
  ∑ n ∈ Finset.range N, ∑ t ∈ Finset.range T, Real.exp (gamma s n t)

/-- The mean-update residual (src/piohmm.py lines 735-748): data minus the
input-output term (previous `V`), the personalized input-output sample term,
and the personalized state sample term. -/
noncomputable def mStepR1 (fl : Flags) (Vs : ℕ → ℕ → ℝ) (Vp : ℕ → ℝ)
    (data : ℕ → ℕ → ℕ → ℝ) (ins : ℕ → ℕ → ℝ) (msample nsample : ℕ → ℕ → ℝ)
    (s n t l : ℕ) : ℝ :=
  data n t l -
    (if fl.ioFlag then (if fl.stateIo then Vs s l else Vp l) * ins n t else 0) -
    (if fl.ioFlag ∧ fl.persoIo then msample n l * ins n t else 0) -
    (if fl.perso then nsample n l else 0)

/-- The mean-update numerator
`einsum(gamma.exp()*om, r*om)` (src/piohmm.py lines 752-754, 761-763,
766-769; the `state_io` and pooled einsums differ only in whether `r` carries
a state index, which the residual above already expresses). -/
noncomputable def mStepMuNum (fl : Flags) (N T : ℕ) (data : ℕ → ℕ → ℕ → ℝ)
    (ins om : ℕ → ℕ → ℝ) (gamma : ℕ → ℕ → ℕ → ℝ) (msample nsample : ℕ → ℕ → ℝ)
    (parPrev : Params) (s l : ℕ) : ℝ :=
  ∑ n ∈ Finset.range N, ∑ t ∈ Finset.range T,
    (Real.exp (gamma s n t) * om n t) *
      (mStepR1 fl parPrev.Vs parPrev.Vp data ins msample nsample s n t l * om n t)

/-- The updated state means `mu` (src/piohmm.py lines 749-770): MAP
(`priorMu`) solves against `diag(N_k) + var/munoise` on the full-covariance
path (via `torch.lu_solve`) and divides by the unmasked occupancy plus
`var/munoise` on the diagonal path; otherwise the responsibility- and
mask-weighted average `num / (N_k + eps)`. -/
noncomputable def mStepMu (fl : Flags) (N T : ℕ) (eps : ℝ)
    (data : ℕ → ℕ → ℕ → ℝ) (ins om : ℕ → ℕ → ℝ) (gamma : ℕ → ℕ → ℕ → ℝ)
    (msample nsample : ℕ → ℕ → ℝ) (parPrev : Params)
    (luSolve : (ℕ → ℕ → ℝ) → (ℕ → ℕ → ℕ → ℝ) → (ℕ → ℕ → ℝ)) : ℕ → ℕ → ℝ :=
  if fl.priorMu then
    (if fl.fullCov then
      luSolve (mStepMuNum fl N T data ins om gamma msample nsample parPrev)
        (fun s a b => mStepNk N T om gamma s * (if a = b then 1 else 0) +
          parPrev.varF s a b / parPrev.munoise)
    else fun s l =>
      mStepMuNum fl N T data ins om gamma msample nsample parPrev s l /
        (mStepG N T gamma s + parPrev.varD s l / parPrev.munoise))
  else fun s l =>
    mStepMuNum fl N T data ins om gamma msample nsample parPrev s l /
      (mStepNk N T om gamma s + eps)

/-- The input-effect residual (src/piohmm.py lines 774-778): data minus the
*new* means and the personalized sample terms. -/
noncomputable def mStepR2 (fl : Flags) (data : ℕ → ℕ → ℕ → ℝ)
    (ins : ℕ → ℕ → ℝ) (msample nsample : ℕ → ℕ → ℝ) (mu : ℕ → ℕ → ℝ)
    (s n t l : ℕ) : ℝ :=
  data n t l - mu s l -
    (if fl.persoIo then msample n l * ins n t else 0) -
    (if fl.perso then nsample n l else 0)

/-- `einsum(gamma.exp()*om, r*ins*om)` of the `V` update
(src/piohmm.py lines 780-781, 789-790). -/
noncomputable def mStepVNum (fl : Flags) (N T : ℕ) (data : ℕ → ℕ → ℕ → ℝ)
    (ins om : ℕ → ℕ → ℝ) (gamma : ℕ → ℕ → ℕ → ℝ) (msample nsample : ℕ → ℕ → ℝ)
    (mu : ℕ → ℕ → ℝ) (s l : ℕ) : ℝ :=
  ∑ n ∈ Finset.range N, ∑ t ∈ Finset.range T,
    (Real.exp (gamma s n t) * om n t) *
      (mStepR2 fl data ins msample nsample mu s n t l * ins n t * om n t)

/-- `torch.sum(gamma.exp()*ins**2*om, (1, 2))` — per-state denominator of the
`V` update (src/piohmm.py lines 783, 791). -/
noncomputable def mStepVDenomS (N T : ℕ) (ins om : ℕ → ℕ → ℝ)
    (gamma : ℕ → ℕ → ℕ → ℝ) (s : ℕ) : ℝ :=
  ∑ n ∈ Finset.range N, ∑ t ∈ Finset.range T,
    Real.exp (gamma s n t) * ins n t ^ 2 * om n t

/-- The updated state-shaped input effect `V` (src/piohmm.py lines 779-792):
ridge-solved against `diag(Σ gamma·ins²·om) + var/vnoise` under `priorV`,
plain weighted least squares per state under `state_io`; otherwise (pooled
`V`, or no input-output effects) the state-shaped slot is untouched. -/
noncomputable def mStepVs (fl : Flags) (N T : ℕ) (data : ℕ → ℕ → ℕ → ℝ)
    (ins om : ℕ → ℕ → ℝ) (gamma : ℕ → ℕ → ℕ → ℝ) (msample nsample : ℕ → ℕ → ℝ)
    (mu : ℕ → ℕ → ℝ) (parPrev : Params)
    (luSolve : (ℕ → ℕ → ℝ) → (ℕ → ℕ → ℕ → ℝ) → (ℕ → ℕ → ℝ)) : ℕ → ℕ → ℝ :=
  if fl.ioFlag then
    (if fl.priorV then
      luSolve (mStepVNum fl N T data ins om gamma msample nsample mu)
        (fun s a b => mStepVDenomS N T ins om gamma s * (if a = b then 1 else 0) +
          parPrev.varF s a b / parPrev.vnoise)
    else if fl.stateIo then fun s l =>
      mStepVNum fl N T data ins om gamma msample nsample mu s l /
        mStepVDenomS N T ins om gamma s
    else parPrev.Vs)
  else parPrev.Vs

/-- The updated pooled input effect `V` (src/piohmm.py lines 793-797): the
state-summed numerator over
`torch.sum((gamma.exp()*tm)*((ins*om)**2))`. -/
noncomputable def mStepVp (fl : Flags) (K N T : ℕ) (data : ℕ → ℕ → ℕ → ℝ)
    (ins om tm : ℕ → ℕ → ℝ) (gamma : ℕ → ℕ → ℕ → ℝ)
    (msample nsample : ℕ → ℕ → ℝ) (mu : ℕ → ℕ → ℝ) (parPrev : Params) :
    ℕ → ℝ :=
  if fl.ioFlag ∧ ¬fl.priorV ∧ ¬fl.stateIo then fun l =>
    (∑ s ∈ Finset.range K, ∑ n ∈ Finset.range N, ∑ t ∈ Finset.range T,
        (Real.exp (gamma s n t) * om n t) *
          (mStepR2 fl data ins msample nsample mu s n t l * ins n t * om n t)) /
      (∑ s ∈ Finset.range K, ∑ n ∈ Finset.range N, ∑ t ∈ Finset.range T,
        (Real.exp (gamma s n t) * tm n t) * (ins n t * om n t) ^ 2)
  else parPrev.Vp

/-- The covariance residual (src/piohmm.py lines 801-811): data minus the new
means, the new input-output term, and the sample terms — multiplied by the
observation mask (`r = r * self.om[None, :, :, None]`).  (With
`priorV=True, state_io=False` the source's `V[None, None, None, :]`
broadcast is shape-inconsistent and would raise; the state-shaped/pooled
choice here follows `state_io` as in the well-formed configurations.) -/
noncomputable def mStepR3 (fl : Flags) (data : ℕ → ℕ → ℕ → ℝ)
    (ins om : ℕ → ℕ → ℝ) (msample nsample : ℕ → ℕ → ℝ) (mu Vs : ℕ → ℕ → ℝ)
    (Vp : ℕ → ℝ) (s n t l : ℕ) : ℝ :=
  (data n t l - mu s l -
      (if fl.ioFlag then (if fl.stateIo then Vs s l else Vp l) * ins n t else 0) -
      (if fl.ioFlag ∧ fl.persoIo then msample n l * ins n t else 0) -
      (if fl.perso then nsample n l else 0)) * om n t

/-- The full-covariance update (src/piohmm.py lines 813-823):
responsibility- and mask-weighted outer products of the residuals over
`N_k + eps`, plus the fixed `1e-4` diagonal ridge. -/
noncomputable def mStepVarF (fl : Flags) (N T : ℕ) (eps : ℝ)
    (data : ℕ → ℕ → ℕ → ℝ) (ins om : ℕ → ℕ → ℝ) (gamma : ℕ → ℕ → ℕ → ℝ)
    (msample nsample : ℕ → ℕ → ℝ) (mu Vs : ℕ → ℕ → ℝ) (Vp : ℕ → ℝ)
    (s a b : ℕ) : ℝ :=
  (∑ n ∈ Finset.range N, ∑ t ∈ Finset.range T,
      (Real.exp (gamma s n t) * om n t) *
        (mStepR3 fl data ins om msample nsample mu Vs Vp s n t a *
          mStepR3 fl data ins om msample nsample mu Vs Vp s n t b)) /
    (mStepNk N T om gamma s + eps) + (if a = b then 1e-4 else 0)

/-- The diagonal covariance update (src/piohmm.py lines 826-828), floored at
`min_var` by `torch.clamp`. -/
noncomputable def mStepVarD (fl : Flags) (N T : ℕ) (eps minVar : ℝ)
    (data : ℕ → ℕ → ℕ → ℝ) (ins om : ℕ → ℕ → ℝ) (gamma : ℕ → ℕ → ℕ → ℝ)
    (msample nsample : ℕ → ℕ → ℝ) (mu Vs : ℕ → ℕ → ℝ) (Vp : ℕ → ℝ)
    (s l : ℕ) : ℝ :=
  max ((∑ n ∈ Finset.range N, ∑ t ∈ Finset.range T,
      (Real.exp (gamma s n t) * om n t) *
        mStepR3 fl data ins om msample nsample mu Vs Vp s n t l ^ 2) /
    (mStepNk N T om gamma s + eps)) minVar

/-- `einsum('ij,ij->i', [M, M]).sum()`. -/
noncomputable def mStepSsq (rows cols : ℕ) (M : ℕ → ℕ → ℝ) : ℝ :=
  ∑ a ∈ Finset.range rows, ∑ b ∈ Finset.range cols, M a b * M a b

/-- The mixing-weight update `pi = N_k1 / N_k1.sum() + eps`
(src/piohmm.py line 853). -/
noncomputable def mStepPi (K N : ℕ) (eps : ℝ) (om : ℕ → ℕ → ℝ)
    (gamma : ℕ → ℕ → ℕ → ℝ) (s : ℕ) : ℝ :=
  mStepNk1 N om gamma s / (∑ u ∈ Finset.range K, mStepNk1 N om gamma u) + eps

/-- The complete M-step (src/piohmm.py lines 701-897), assembling the next
parameter set; parameter slots whose dictionary key a configuration does not
produce (`V` without `io`, the noise scalars without their flags, the unused
covariance shape) keep their previous values. -/
noncomputable def mStep (fl : Flags) (K N T D : ℕ) (eps minVar alphaIG betaIG : ℝ)
    (data : ℕ → ℕ → ℕ → ℝ) (ins om tm : ℕ → ℕ → ℝ)
    (gamma : ℕ → ℕ → ℕ → ℝ) (xi : ℕ → ℕ → ℕ → ℕ → EReal)
    (msample nsample : ℕ → ℕ → ℝ) (parPrev : Params)
    (luSolve : (ℕ → ℕ → ℝ) → (ℕ → ℕ → ℕ → ℝ) → (ℕ → ℕ → ℝ)) : Params :=
  { mu := mStepMu fl N T eps data ins om gamma msample nsample parPrev luSolve
    varD := if fl.fullCov then parPrev.varD
      else mStepVarD fl N T eps minVar data ins om gamma msample nsample
        (mStepMu fl N T eps data ins om gamma msample nsample parPrev luSolve)
        (mStepVs fl N T data ins om gamma msample nsample
          (mStepMu fl N T eps data ins om gamma msample nsample parPrev luSolve)
          parPrev luSolve)
        (mStepVp fl K N T data ins om tm gamma msample nsample
          (mStepMu fl N T eps data ins om gamma msample nsample parPrev luSolve)
          parPrev)
    varF := if fl.fullCov then
        mStepVarF fl N T eps data ins om gamma msample nsample
          (mStepMu fl N T eps data ins om gamma msample nsample parPrev luSolve)
          (mStepVs fl N T data ins om gamma msample nsample
            (mStepMu fl N T eps data ins om gamma msample nsample parPrev luSolve)
            parPrev luSolve)
          (mStepVp fl K N T data ins om tm gamma msample nsample
            (mStepMu fl N T eps data ins om gamma msample nsample parPrev luSolve)
            parPrev)
      else parPrev.varF
    piW := mStepPi K N eps om gamma
    A := mStepA K N (T - 1) eps fl.ut om xi
    Vs := mStepVs fl N T data ins om gamma msample nsample
      (mStepMu fl N T eps data ins om gamma msample nsample parPrev luSolve)
      parPrev luSolve
    Vp := mStepVp fl K N T data ins om tm gamma msample nsample
      (mStepMu fl N T eps data ins om gamma msample nsample parPrev luSolve)
      parPrev
    mnoise := if fl.persoIo then
        (if fl.priorV then
          1 / (2 * alphaIG + 2 + N * D) * (2 * betaIG + mStepSsq N D msample)
        else 1 / N / D * mStepSsq N D msample)
      else parPrev.mnoise
    vnoise := if fl.priorV then
        1 / (2 * alphaIG + 2 + D * K) *
          (2 * betaIG + mStepSsq K D
            (mStepVs fl N T data ins om gamma msample nsample
              (mStepMu fl N T eps data ins om gamma msample nsample parPrev luSolve)
              parPrev luSolve))
      else parPrev.vnoise
    nnoise := if fl.perso then
        (if fl.priorMu then
          1 / (2 * alphaIG + 2 + N * D) * (2 * betaIG + mStepSsq N D nsample)
        else 1 / N / D * mStepSsq N D nsample)
      else parPrev.nnoise
    munoise := if fl.priorMu then
        1 / (2 * alphaIG + 2 + D * K) *
          (2 * betaIG + mStepSsq K D
            (mStepMu fl N T eps data ins om gamma msample nsample parPrev luSolve))
      else parPrev.munoise }

/-! ## Masked-observation invariance of the E-step + M-step pipeline (C7) -/

section MaskedInvariance

variable (fl : Flags) (K N T D : ℕ) (eps minVar alphaIG betaIG : ℝ)
variable (data1 data2 : ℕ → ℕ → ℕ → ℝ) (ins om tm : ℕ → ℕ → ℝ)
variable (gamma : ℕ → ℕ → ℕ → ℝ) (msample nsample : ℕ → ℕ → ℝ)
variable (parPrev : Params)
variable (luSolve : (ℕ → ℕ → ℝ) → (ℕ → ℕ → ℕ → ℝ) → (ℕ → ℕ → ℝ))
variable (i0 t0 : ℕ)

lemma mStepMuNum_congr (hmask : om i0 t0 = 0)
    (hdiff : ∀ n t l, ¬(n = i0 ∧ t = t0) → data1 n t l = data2 n t l) :
    mStepMuNum fl N T data1 ins om gamma msample nsample parPrev =
      mStepMuNum fl N T data2 ins om gamma msample nsample parPrev := by
  funext s l
  unfold mStepMuNum
  refine Finset.sum_congr rfl fun n _ => Finset.sum_congr rfl fun t _ => ?_
  by_cases hc : n = i0 ∧ t = t0
  · obtain ⟨hn, ht⟩ := hc
    subst hn; subst ht
    rw [hmask]
    ring
  · unfold mStepR1
    rw [hdiff n t l hc]

lemma mStepMu_congr (hmask : om i0 t0 = 0)
    (hdiff : ∀ n t l, ¬(n = i0 ∧ t = t0) → data1 n t l = data2 n t l) :
    mStepMu fl N T eps data1 ins om gamma msample nsample parPrev luSolve =
      mStepMu fl N T eps data2 ins om gamma msample nsample parPrev luSolve := by
  unfold mStepMu
  rw [mStepMuNum_congr fl N T data1 data2 ins om gamma msample nsample parPrev
    i0 t0 hmask hdiff]

lemma mStepVNum_congr (mu : ℕ → ℕ → ℝ) (hmask : om i0 t0 = 0)
    (hdiff : ∀ n t l, ¬(n = i0 ∧ t = t0) → data1 n t l = data2 n t l) :
    mStepVNum fl N T data1 ins om gamma msample nsample mu =
      mStepVNum fl N T data2 ins om gamma msample nsample mu := by
  funext s l
  unfold mStepVNum
  refine Finset.sum_congr rfl fun n _ => Finset.sum_congr rfl fun t _ => ?_
  by_cases hc : n = i0 ∧ t = t0
  · obtain ⟨hn, ht⟩ := hc
    subst hn; subst ht
    rw [hmask]
    ring
  · unfold mStepR2
    rw [hdiff n t l hc]

lemma mStepVs_congr (mu : ℕ → ℕ → ℝ) (hmask : om i0 t0 = 0)
    (hdiff : ∀ n t l, ¬(n = i0 ∧ t = t0) → data1 n t l = data2 n t l) :
    mStepVs fl N T data1 ins om gamma msample nsample mu parPrev luSolve =
      mStepVs fl N T data2 ins om gamma msample nsample mu parPrev luSolve := by
  unfold mStepVs
  rw [mStepVNum_congr fl N T data1 data2 ins om gamma msample nsample i0 t0 mu
    hmask hdiff]

lemma mStepVp_congr (mu : ℕ → ℕ → ℝ) (hmask : om i0 t0 = 0)
    (hdiff : ∀ n t l, ¬(n = i0 ∧ t = t0) → data1 n t l = data2 n t l) :
    mStepVp fl K N T data1 ins om tm gamma msample nsample mu parPrev =
      mStepVp fl K N T data2 ins om tm gamma msample nsample mu parPrev := by
  unfold mStepVp
  split
  · funext l
    congr 1
    refine Finset.sum_congr rfl fun s _ =>
      Finset.sum_congr rfl fun n _ => Finset.sum_congr rfl fun t _ => ?_
    by_cases hc : n = i0 ∧ t = t0
    · obtain ⟨hn, ht⟩ := hc
      subst hn; subst ht
      rw [hmask]
      ring
    · unfold mStepR2
      rw [hdiff n t l hc]
  · rfl

lemma mStepR3_congr (mu Vs : ℕ → ℕ → ℝ) (Vp : ℕ → ℝ) (hmask : om i0 t0 = 0)
    (hdiff : ∀ n t l, ¬(n = i0 ∧ t = t0) → data1 n t l = data2 n t l) :
    mStepR3 fl data1 ins om msample nsample mu Vs Vp =
      mStepR3 fl data2 ins om msample nsample mu Vs Vp := by
  funext s n t l
  unfold mStepR3
  by_cases hc : n = i0 ∧ t = t0
  · obtain ⟨hn, ht⟩ := hc
    subst hn; subst ht
    rw [hmask]
    ring
  · rw [hdiff n t l hc]

lemma mStepVarD_congr (mu Vs : ℕ → ℕ → ℝ) (Vp : ℕ → ℝ) (hmask : om i0 t0 = 0)
    (hdiff : ∀ n t l, ¬(n = i0 ∧ t = t0) → data1 n t l = data2 n t l) :
    mStepVarD fl N T eps minVar data1 ins om gamma msample nsample mu Vs Vp =
      mStepVarD fl N T eps minVar data2 ins om gamma msample nsample mu Vs Vp := by
  unfold mStepVarD
  rw [mStepR3_congr fl data1 data2 ins om msample nsample i0 t0 mu Vs Vp hmask hdiff]

lemma mStepVarF_congr (mu Vs : ℕ → ℕ → ℝ) (Vp : ℕ → ℝ) (hmask : om i0 t0 = 0)
    (hdiff : ∀ n t l, ¬(n = i0 ∧ t = t0) → data1 n t l = data2 n t l) :
    mStepVarF fl N T eps data1 ins om gamma msample nsample mu Vs Vp =
      mStepVarF fl N T eps data2 ins om gamma msample nsample mu Vs Vp := by
  unfold mStepVarF
  rw [mStepR3_congr fl data1 data2 ins om msample nsample i0 t0 mu Vs Vp hmask hdiff]

/-- M-step half of the masked-observation invariance: with identical
posteriors, samples and previous parameters, the M-step output is identical
for two data arrays differing only at an `ObservationMask = 0` position. -/
lemma mStep_masked_congr (xi : ℕ → ℕ → ℕ → ℕ → EReal) (hmask : om i0 t0 = 0)
    (hdiff : ∀ n t l, ¬(n = i0 ∧ t = t0) → data1 n t l = data2 n t l) :
    mStep fl K N T D eps minVar alphaIG betaIG data1 ins om tm gamma xi
        msample nsample parPrev luSolve =
      mStep fl K N T D eps minVar alphaIG betaIG data2 ins om tm gamma xi
        msample nsample parPrev luSolve := by
  unfold mStep
  rw [mStepMu_congr fl N T eps data1 data2 ins om gamma msample nsample parPrev
      luSolve i0 t0 hmask hdiff,
    mStepVs_congr fl N T data1 data2 ins om gamma msample nsample parPrev luSolve
      i0 t0 (mStepMu fl N T eps data2 ins om gamma msample nsample parPrev luSolve)
      hmask hdiff,
    mStepVp_congr fl K N T data1 data2 ins om tm gamma msample nsample parPrev
      i0 t0 (mStepMu fl N T eps data2 ins om gamma msample nsample parPrev luSolve)
      hmask hdiff,
    mStepVarD_congr fl N T eps minVar data1 data2 ins om gamma msample nsample i0 t0
      (mStepMu fl N T eps data2 ins om gamma msample nsample parPrev luSolve)
      (mStepVs fl N T data2 ins om gamma msample nsample
        (mStepMu fl N T eps data2 ins om gamma msample nsample parPrev luSolve)
        parPrev luSolve)
      (mStepVp fl K N T data2 ins om tm gamma msample nsample
        (mStepMu fl N T eps data2 ins om gamma msample nsample parPrev luSolve)
        parPrev)
      hmask hdiff,
    mStepVarF_congr fl N T eps data1 data2 ins om gamma msample nsample i0 t0
      (mStepMu fl N T eps data2 ins om gamma msample nsample parPrev luSolve)
      (mStepVs fl N T data2 ins om gamma msample nsample
        (mStepMu fl N T eps data2 ins om gamma msample nsample parPrev luSolve)
        parPrev luSolve)
      (mStepVp fl K N T data2 ins om tm gamma msample nsample
        (mStepMu fl N T eps data2 ins om gamma msample nsample parPrev luSolve)
        parPrev)
      hmask hdiff]

end MaskedInvariance

/-- The pairwise marginal `xi` of `HMM.e_step` on its full pipeline: the
`eStepXi` formula applied to the forward/backward outputs, the masked
likelihoods, the masked scaling factors, and the current transition matrix. -/
noncomputable def eStepXiFull (fl : Flags) (k T d : ℕ) (par : Params)
    (data : ℕ → ℕ → ℕ → ℝ) (ins : ℕ → ℕ → ℝ) (om tm : ℕ → ℕ → ℝ)
    (msample nsample : ℕ → ℕ → ℝ) : ℕ → ℕ → ℕ → ℕ → EReal :=
  eStepXi
    (fun s i t =>
      forwardAlpha k par.piW par.A tm
        (getLikelihoods fl d par data ins om msample nsample) s i t)
    (fun s i t =>
      backwardBeta k T par.A (getLikelihoods fl d par data ins om msample nsample)
        (forwardScaling k par.piW par.A tm
          (getLikelihoods fl d par data ins om msample nsample)) tm s i t)
    (getLikelihoods fl d par data ins om msample nsample)
    (fun n t =>
      forwardScaling k par.piW par.A tm
        (getLikelihoods fl d par data ins om msample nsample) n t)
    par.A

/-- One E-step followed by one M-step, from the same model parameters and with
the personalized-effect draws supplied as inputs (the "identical random
draws"): the M-step consumes the E-step's `gamma` and `xi` together with the
raw data. -/
noncomputable def eThenMStep (fl : Flags) (K N T D : ℕ)
    (eps minVar alphaIG betaIG : ℝ) (data : ℕ → ℕ → ℕ → ℝ)
    (ins om tm : ℕ → ℕ → ℝ) (msample nsample : ℕ → ℕ → ℝ) (par : Params)
    (luSolve : (ℕ → ℕ → ℝ) → (ℕ → ℕ → ℕ → ℝ) → (ℕ → ℕ → ℝ)) : Params :=
  mStep fl K N T D eps minVar alphaIG betaIG data ins om tm
    (eStepGamma fl K T D par data ins om tm msample nsample)
    (eStepXiFull fl K T D par data ins om tm msample nsample)
    msample nsample par luSolve

lemma logGaussian_congr (fl : Flags) (d : ℕ) (par : Params)
    (data1 data2 : ℕ → ℕ → ℕ → ℝ) (ins : ℕ → ℕ → ℝ)
    (msample nsample : ℕ → ℕ → ℝ) (s i t : ℕ)
    (h : ∀ l, data1 i t l = data2 i t l) :
    logGaussian fl d par data1 ins msample nsample s i t =
      logGaussian fl d par data2 ins msample nsample s i t := by
  have hres : ∀ l, residual fl par.mu par.Vs par.Vp data1 ins msample nsample s i t l =
      residual fl par.mu par.Vs par.Vp data2 ins msample nsample s i t l := by
    intro l
    unfold residual
    rw [h l]
  unfold logGaussian
  split
  · unfold logGaussianFull
    rw [show (fun l => residual fl par.mu par.Vs par.Vp data1 ins msample nsample s i t l) =
        (fun l => residual fl par.mu par.Vs par.Vp data2 ins msample nsample s i t l) from
      funext hres]
  · unfold logGaussianDiag
    refine Finset.sum_congr rfl fun l _ => ?_
    rw [hres l]

lemma getLikelihoods_masked_congr (fl : Flags) (d : ℕ) (par : Params)
    (data1 data2 : ℕ → ℕ → ℕ → ℝ) (ins om : ℕ → ℕ → ℝ)
    (msample nsample : ℕ → ℕ → ℝ) (i0 t0 : ℕ) (hmask : om i0 t0 = 0)
    (hdiff : ∀ n t l, ¬(n = i0 ∧ t = t0) → data1 n t l = data2 n t l) :
    getLikelihoods fl d par data1 ins om msample nsample =
      getLikelihoods fl d par data2 ins om msample nsample := by
  funext s i t
  unfold getLikelihoods
  by_cases hc : i = i0 ∧ t = t0
  · obtain ⟨h1, h2⟩ := hc
    subst h1; subst h2
    rw [hmask, mul_zero, mul_zero]
  · rw [logGaussian_congr fl d par data1 data2 ins msample nsample s i t
      (fun l => hdiff i t l hc)]

/-- **C7.**  For any two observation arrays that differ only in the entry at a
position `(i0, t0)` whose observation-mask value is `0`, running the E-step
and then the M-step from the same model parameters, masks and inputs, with
identical personalized-effect random draws, produces identical M-step output
parameters. -/
theorem e_then_m_step_masked_observation_invariance
    (fl : Flags) (K N T D : ℕ) (eps minVar alphaIG betaIG : ℝ)
    (data1 data2 : ℕ → ℕ → ℕ → ℝ) (ins om tm : ℕ → ℕ → ℝ)
    (msample nsample : ℕ → ℕ → ℝ) (par : Params)
    (luSolve : (ℕ → ℕ → ℝ) → (ℕ → ℕ → ℕ → ℝ) → (ℕ → ℕ → ℝ)) (i0 t0 : ℕ)
    (hmask : om i0 t0 = 0)
    (hdiff : ∀ n t l, ¬(n = i0 ∧ t = t0) → data1 n t l = data2 n t l) :
    eThenMStep fl K N T D eps minVar alphaIG betaIG data1 ins om tm
        msample nsample par luSolve =
      eThenMStep fl K N T D eps minVar alphaIG betaIG data2 ins om tm
        msample nsample par luSolve := by
  have hlik := getLikelihoods_masked_congr fl D par data1 data2 ins om
    msample nsample i0 t0 hmask hdiff
  have hgamma : eStepGamma fl K T D par data1 ins om tm msample nsample =
      eStepGamma fl K T D par data2 ins om tm msample nsample := by
    funext s i t
    unfold eStepGamma
    rw [hlik]
  have hxi : eStepXiFull fl K T D par data1 ins om tm msample nsample =
      eStepXiFull fl K T D par data2 ins om tm msample nsample := by
    unfold eStepXiFull
    rw [hlik]
  unfold eThenMStep
  rw [hgamma, hxi]
  exact mStep_masked_congr fl K N T D eps minVar alphaIG betaIG data1 data2 ins
    om tm (eStepGamma fl K T D par data2 ins om tm msample nsample) msample
    nsample par luSolve i0 t0
    (eStepXiFull fl K T D par data2 ins om tm msample nsample) hmask hdiff

/-- Concrete instance discharging the hypotheses of the `C7` theorem: two data
arrays agreeing everywhere except at the masked position `(0, 0)`. -/
theorem e_then_m_step_masked_observation_invariance_witness :
    eThenMStep ⟨false, false, false, false, false, false, false, false⟩ 1 1 1 1
        0 (1e-6) 10 5 (fun _ _ _ => 0) (fun _ _ => 0)
        (fun n t => if n = 0 ∧ t = 0 then 0 else 1) (fun _ _ => 1)
        (fun _ _ => 0) (fun _ _ => 0)
        ⟨fun _ _ => 0, fun _ _ => 1, fun _ _ _ => 0, fun _ => 1, fun _ _ => 1,
          fun _ _ => 0, fun _ => 0, 0, 0, 0, 0⟩
        (fun num _ => num) =
      eThenMStep ⟨false, false, false, false, false, false, false, false⟩ 1 1 1 1
        0 (1e-6) 10 5 (fun n t _ => if n = 0 ∧ t = 0 then 5 else 0) (fun _ _ => 0)
        (fun n t => if n = 0 ∧ t = 0 then 0 else 1) (fun _ _ => 1)
        (fun _ _ => 0) (fun _ _ => 0)
        ⟨fun _ _ => 0, fun _ _ => 1, fun _ _ _ => 0, fun _ => 1, fun _ _ => 1,
          fun _ _ => 0, fun _ => 0, 0, 0, 0, 0⟩
        (fun num _ => num) :=
  e_then_m_step_masked_observation_invariance
    ⟨false, false, false, false, false, false, false, false⟩ 1 1 1 1 0 (1e-6) 10 5
    (fun _ _ _ => 0) (fun n t _ => if n = 0 ∧ t = 0 then 5 else 0) (fun _ _ => 0)
    (fun n t => if n = 0 ∧ t = 0 then 0 else 1) (fun _ _ => 1)
    (fun _ _ => 0) (fun _ _ => 0)
    ⟨fun _ _ => 0, fun _ _ => 1, fun _ _ _ => 0, fun _ => 1, fun _ _ => 1,
      fun _ _ => 0, fun _ => 0, 0, 0, 0, 0⟩
    (fun num _ => num) 0 0 (by simp)
    (fun n t l hc => by simp [if_neg hc])

end PIOHMM
